import Mathlib

/-!
Verification development for the `config` Go package (dotted-path access to
JSON/YAML configuration trees).

The Go value universe `any` restricted to decoded configuration data
(`normalizeValue` admits exactly `bool`, `float64`, `int`, `string`, `nil`,
`[]any` and `map[string]any`) is embedded as the inductive type `Node`.
Go maps are embedded as association lists with unique keys; Go's random map
iteration order is determinized to list order.  `float64` payloads are
abstracted to `Rat`; no theorem below depends on float arithmetic or
formatting.

Mutation is embedded functionally: each mutating operation returns the tree
as it is observable through the caller's reference after the call.  Two facts
of Go reference semantics are captured explicitly where they matter:
  * assigning to a map (`m[k] = v`) and assigning to a slice element at an
    index below the caller's slice length are visible to every holder of a
    reference to that map/slice;
  * growing a slice with `append` rebinds only the local slice header, so
    elements at or beyond the caller's original length are *not* visible to
    the caller (this is why densifying `Set` writes into an existing
    sequence are lost, see the C1 theorems).
Run-time faults (out-of-range slice indexing with a negative index,
`make` with negative length) are modeled by the `panicked` outcome, distinct
from returned errors.
-/

namespace Config

/-- The closed union of configuration node values (Go `any` after
`normalizeValue`): `nil`, `bool`, `int`, `float64`, `string`, `[]any`,
`map[string]any`. -/
inductive Node where
  | null : Node
  | bool (b : Bool) : Node
  | int (n : Int) : Node
  | float (q : Rat) : Node
  | str (s : String) : Node
  | seq (xs : List Node) : Node
  | map (kvs : List (String × Node)) : Node
  deriving Repr

/-- Go's "%T" rendering of the dynamic type of a node, as used in error
messages (`typeMismatch`, invalid-type errors). -/
def goTypeName : Node → String
  | .null => "<nil>"
  | .bool _ => "bool"
  | .int _ => "int"
  | .float _ => "float64"
  | .str _ => "string"
  | .seq _ => "[]interface {}"
  | .map _ => "map[string]interface {}"

/-- The error values the package returns, keyed by the `fmt.Errorf` /
`strconv` call sites in config.go.  `sub` carries the joined sub-path (or,
for `invalidListIndex` raised by `Set`, just the offending segment, which is
what `Set` formats). -/
inductive GoErr where
  | invalidPath (path : String)
  | invalidListIndex (sub : String)
  | indexOutOfRange (sub : String) (len : Nat)
  | nonexistentMapKey (sub : String)
  | invalidTypeAt (sub : String) (got : String)
  | invalidTypeRoot (got : String)
  | typeMismatch (expected : String) (got : String)
  | parseBoolSyntax (num : String)
  deriving Repr, DecidableEq

/-- Outcome of an operation: a returned value, a returned non-nil error, or a
run-time panic (never a returned value in Go; kept distinct). -/
inductive GoResult (α : Type) where
  | ok (val : α)
  | err (e : GoErr)
  | panicked (msg : String)
  deriving Repr, DecidableEq

/-- Decimal digit accumulation for `strconv.ParseInt(s, 10, 0)`: every
character must be an ASCII digit. -/
def parseDigits : List Char → Nat → Option Nat
  | [], acc => some acc
  | c :: cs, acc =>
      if c.isDigit then parseDigits cs (acc * 10 + (c.toNat - '0'.toNat)) else none

/-- `strconv.ParseInt(s, 10, 0)` (= `strconv.Atoi`): an optional single
leading '+' or '-', then at least one ASCII digit and nothing else; the value
must fit a 64-bit int (bitSize 0 on a 64-bit platform). -/
def parseGoInt (s : String) : Option Int :=
  let p : Int × List Char :=
    match s.data with
    | '+' :: cs => (1, cs)
    | '-' :: cs => (-1, cs)
    | cs => (1, cs)
  if p.2 = [] then none
  else
    match parseDigits p.2 0 with
    | none => none
    | some n =>
        let v : Int := p.1 * n
        if v < -(2 ^ 63) ∨ 2 ^ 63 - 1 < v then none else some v

/-- `strings.Split(s, ".")`: split around every dot; empty pieces are kept
(one more piece than there are dots, `[""]` for the empty string). -/
def splitDotChars : List Char → List Char → List String
  | [], buf => [String.mk buf.reverse]
  | c :: cs, buf =>
      if c = '.' then String.mk buf.reverse :: splitDotChars cs []
      else splitDotChars cs (c :: buf)

/-- The write-path parser used by `Set`: a plain split on dots. -/
def splitDot (s : String) : List String := splitDotChars s.data []

/-- The read-path parser loop of `splitKeyOnParts`: '[' opens and ']' closes
bracket mode (both characters are dropped), a dot outside brackets flushes the
buffer as a part, and the final buffer is flushed only when non-empty. -/
def splitKeyChars : List Char → Bool → List Char → List String
  | [], _, buf => if buf = [] then [] else [String.mk buf.reverse]
  | c :: cs, bracketOpened, buf =>
      if c = '[' ∨ c = ']' then splitKeyChars cs (c = '[') buf
      else if c = '.' ∧ ¬bracketOpened then
        String.mk buf.reverse :: splitKeyChars cs bracketOpened []
      else splitKeyChars cs bracketOpened (c :: buf)

/-- `splitKeyOnParts`, the read-path parser used by `Get` and the typed
accessors. -/
def splitKeyOnParts (key : String) : List String := splitKeyChars key.data false []

/-- The path-normalization loop shared (semantically) by `Get` and `Set`:
an empty part anywhere after position 0 is an invalid path; an empty part in
position 0 is dropped.  (Both Go loops range over the original slice, so the
first part being empty never masks a later empty part.) -/
def normalizeParts (parts : List String) : Option (List String) :=
  if (parts.drop 1).contains "" then none
  else if parts.head? = some "" then some (parts.drop 1) else some parts

/-- Go map lookup `c[part]`, on the association-list embedding. -/
def lookupGo : List (String × Node) → String → Option Node
  | [], _ => none
  | (k, v) :: rest, key => if k = key then some v else lookupGo rest key

/-- Go map assignment `c[key] = v`: replace the existing binding in place,
or add a new one. -/
def mapSet : List (String × Node) → String → Node → List (String × Node)
  | [], key, v => [(key, v)]
  | (k, w) :: rest, key, v =>
      if k = key then (key, v) :: rest else (k, w) :: mapSet rest key v

/-- The Go test `c[i] == nil` on an interface slot: true exactly for the nil
(Null) node. -/
def isNullNode : Node → Bool
  | .null => true
  | _ => false

/-- `strings.Join(parts, ".")`. -/
def joinDots : List String → String
  | [] => ""
  | [p] => p
  | p :: rest => p ++ "." ++ joinDots rest

/-- The traversal loop of `Get` over the normalized parts.  `seen` carries the
already-consumed parts so error messages can report the joined sub-path
`strings.Join(parts[:pos+1], ".")`.  Go checks only `int(i) < len(c)` before
indexing `c[i]`, so a negative parsed index reaches the index expression and
faults. -/
def getLoop : Node → List String → List String → GoResult Node
  | cfg, [], _ => .ok cfg
  | cfg, part :: rest, seen =>
    match cfg with
    | .seq c =>
      match parseGoInt part with
      | some i =>
          if hlt : i < (c.length : Int) then
            if hge : 0 ≤ i then
              getLoop (c.get ⟨i.toNat, by omega⟩) rest (seen ++ [part])
            else .panicked "runtime error: index out of range"
          else .err (.indexOutOfRange (joinDots (seen ++ [part])) c.length)
      | none => .err (.invalidListIndex (joinDots (seen ++ [part])))
    | .map kvs =>
      match lookupGo kvs part with
      | some v => getLoop v rest (seen ++ [part])
      | none => .err (.nonexistentMapKey (joinDots (seen ++ [part])))
    | other => .err (.invalidTypeAt (joinDots (seen ++ [part])) (goTypeName other))

/-- `Get(cfg, path)`: split with the read-path parser, normalize, walk. -/
def GoGet (cfg : Node) (path : String) : GoResult Node :=
  match normalizeParts (splitKeyOnParts path) with
  | none => .err (.invalidPath path)
  | some parts => getLoop cfg parts []

/-- The peek-and-materialize rule of `Set`: when the next segment parses as an
integer `i`, `make([]any, i+1)` (which faults when `i+1 < 0`), otherwise a new
empty map. -/
def materializeFor (nextPart : String) : GoResult Node :=
  match parseGoInt nextPart with
  | some i =>
      if i + 1 < 0 then .panicked "runtime error: makeslice: len out of range"
      else .ok (.seq (List.replicate (i + 1).toNat .null))
  | none => .ok (.map [])

/-- The recursion of `Set` over the normalized parts.  The source re-joins
`parts[1:]` with dots and re-splits in the recursive call; on normalized parts
(all non-empty and dot-free, which `strings.Split` plus normalization
guarantees) that round trip is the identity, so the recursion is taken
directly on the part list.

The returned `Node` is the tree as observable through the caller's reference
after the call, including after an error (`Set` is not transactional).  In the
sequence case the local `c = append(c, nil)` growth loop rebinds only the
local slice header: writes at indices at or beyond the caller's original
length are invisible to the caller, which the final
`List.take c.length` captures. -/
def setGo : Node → List String → Node → GoResult Unit × Node
  | cfg, [], _ => (.ok (), cfg)
  | cfg, part :: rest, value =>
    match cfg with
    | .map kvs =>
      match rest with
      | [] => (.ok (), .map (mapSet kvs part value))
      | next :: _ =>
        match lookupGo kvs part with
        | some v =>
            let r := setGo v rest value
            (r.1, .map (mapSet kvs part r.2))
        | none =>
            match materializeFor next with
            | .ok fresh =>
                let r := setGo fresh rest value
                (r.1, .map (mapSet kvs part r.2))
            | .err e => (.err e, .map kvs)
            | .panicked m => (.panicked m, .map kvs)
    | .seq c =>
      match parseGoInt part with
      | none => (.err (.invalidListIndex part), .seq c)
      | some i =>
          if i < 0 then
            -- the densify loop `for len(c) <= i` never runs; `c[i]` faults
            (.panicked "runtime error: index out of range", .seq c)
          else
            let iN := i.toNat
            let grown := c ++ List.replicate (iN + 1 - c.length) .null
            match rest with
            | [] => (.ok (), .seq ((grown.set iN value).take c.length))
            | next :: _ =>
              let elem := grown.getD iN .null
              if isNullNode elem then
                match materializeFor next with
                | .ok fresh =>
                    let r := setGo fresh rest value
                    (r.1, .seq (((grown.set iN fresh).set iN r.2).take c.length))
                | .err e => (.err e, .seq (grown.take c.length))
                | .panicked m => (.panicked m, .seq (grown.take c.length))
              else
                let r := setGo elem rest value
                (r.1, .seq ((grown.set iN r.2).take c.length))
    | other => (.err (.invalidTypeRoot (goTypeName other)), other)

/-- `Set(cfg, path, value)`: plain dot split, normalize, then the recursion;
an empty normalized part list returns success without touching the tree. -/
def GoSet (cfg : Node) (path : String) (value : Node) : GoResult Unit × Node :=
  match normalizeParts (splitDot path) with
  | none => (.err (.invalidPath path), cfg)
  | some parts => setGo cfg parts value

/-- `strconv.ParseBool`: exactly these twelve literals are accepted; anything
else is a syntax error (not a type mismatch). -/
def parseGoBool (s : String) : GoResult Bool :=
  if s = "1" ∨ s = "t" ∨ s = "T" ∨ s = "true" ∨ s = "TRUE" ∨ s = "True" then .ok true
  else if s = "0" ∨ s = "f" ∨ s = "F" ∨ s = "false" ∨ s = "FALSE" ∨ s = "False" then .ok false
  else .err (.parseBoolSyntax s)

/-- `Config.Bool(path)`: resolve with Get, pass a bool through, parse a
string with `strconv.ParseBool`, reject every other variant. -/
def boolAcc (root : Node) (path : String) : GoResult Bool :=
  match GoGet root path with
  | .ok (.bool b) => .ok b
  | .ok (.str s) => parseGoBool s
  | .ok n => .err (.typeMismatch "bool or string" (goTypeName n))
  | .err e => .err e
  | .panicked m => .panicked m

/-- `Config.List(path)`: resolve with Get and require a sequence. -/
def listAcc (root : Node) (path : String) : GoResult (List Node) :=
  match GoGet root path with
  | .ok (.seq xs) => .ok xs
  | .ok n => .err (.typeMismatch "[]any" (goTypeName n))
  | .err e => .err e
  | .panicked m => .panicked m

/-- The element-wise array merge in `Extend`: start from a copy of the target,
overwrite index i for i below the target length, append past it.  Closed form:
the source wins on its indices, the target tail beyond the source length
survives. -/
def mergeArrays (targetArr sourceArr : List Node) : List Node :=
  sourceArr ++ targetArr.drop sourceArr.length

/-- Path accumulation of `findArrayPathsRecursive`: the root is the empty
string, and a key is appended with a dot separator only to a non-empty
accumulated path. -/
def pathAppend (path k : String) : String :=
  if path = "" then k else path ++ "." ++ k

mutual

/-- `findArrayPathsRecursive`: record the accumulated path at a sequence
(without descending into its elements), recurse through map values, ignore
leaves. -/
def findArrayPathsRec (value : Node) (path : String) : List String :=
  match value with
  | .seq _ => [path]
  | .map kvs => findArrayPathsMap kvs path
  | _ => []

def findArrayPathsMap (kvs : List (String × Node)) (path : String) : List String :=
  match kvs with
  | [] => []
  | (k, v) :: rest => findArrayPathsRec v (pathAppend path k) ++ findArrayPathsMap rest path

end

/-- `findArrayPaths`. -/
def findArrayPaths (root : Node) : List String := findArrayPathsRec root ""

mutual

/-- `getKeys`: the key paths of every leaf, descending through map keys and
through sequence indices (`strconv.Itoa(i)`); an empty container contributes
nothing. -/
def getKeysGo (source : Node) (base : List String) : List (List String) :=
  match source with
  | .map kvs => getKeysMap kvs base
  | .seq xs => getKeysSeq xs 0 base
  | _ => [base]

def getKeysMap : List (String × Node) → List String → List (List String)
  | [], _ => []
  | (k, v) :: rest, base => getKeysGo v (base ++ [k]) ++ getKeysMap rest base

def getKeysSeq : List Node → Nat → List String → List (List String)
  | [], _, _ => []
  | v :: rest, i, base => getKeysGo v (base ++ [toString i]) ++ getKeysSeq rest (i + 1) base

end

/-- `strings.HasPrefix(s, pre)`, modeled on the character lists. -/
def goHasPrefix (s pre : String) : Bool := pre.data.isPrefixOf s.data

/-- The skip test of `Extend`'s second pass: a joined key is skipped when it
equals a processed array path or lies strictly under one
(`strings.HasPrefix(k, path + ".")`). -/
def isProcessed (processed : List String) (k : String) : Bool :=
  processed.any (fun p => k == p || goHasPrefix k (p ++ "."))

/-- The array-merge pass of `Extend`, folding over the overlay's array paths.
The root path is skipped; for each other path the overlay's sequence is read,
merged element-wise into the copy's sequence when the copy has one there, and
otherwise written outright; errors abort the whole operation.  Returns the
updated copy and the processed paths. -/
def extendArrays (overlay : Node) : Node → List String → List String → GoResult (Node × List String)
  | n, [], processed => .ok (n, processed)
  | n, p :: rest, processed =>
    if p = "" then extendArrays overlay n rest processed
    else
      match listAcc overlay p with
      | .ok sourceArr =>
        match listAcc n p with
        | .ok targetArr =>
          match GoSet n p (.seq (mergeArrays targetArr sourceArr)) with
          | (.ok _, n2) => extendArrays overlay n2 rest (processed ++ [p])
          | (.err e, _) => .err e
          | (.panicked m, _) => .panicked m
        | .err _ =>
          match GoSet n p (.seq sourceArr) with
          | (.ok _, n2) => extendArrays overlay n2 rest (processed ++ [p])
          | (.err e, _) => .err e
          | (.panicked m, _) => .panicked m
        | .panicked m => .panicked m
      | .err e => .err e
      | .panicked m => .panicked m

/-- The leaf-copy pass of `Extend`: every joined overlay key not at/under a
processed array path is read from the overlay and written into the copy. -/
def extendKeys (overlay : Node) : Node → List (List String) → List String → GoResult Node
  | n, [], _ => .ok n
  | n, key :: rest, processed =>
    let k := joinDots key
    if isProcessed processed k then extendKeys overlay n rest processed
    else
      match GoGet overlay k with
      | .ok i =>
        match GoSet n k i with
        | (.ok _, n2) => extendKeys overlay n2 rest processed
        | (.err e, _) => .err e
        | (.panicked m, _) => .panicked m
      | .err e => .err e
      | .panicked m => .panicked m

/-- `Extend(base, overlay)`.  The initial `Copy()` (serialize then reparse
through the external YAML collaborator) is modeled as the identity on tree
values: it returns a structurally equal, unaliased tree. -/
def extendGo (base overlay : Node) : GoResult Node :=
  match extendArrays overlay base (findArrayPaths overlay) [] with
  | .ok (n, processed) => extendKeys overlay n (getKeysGo overlay []) processed
  | .err e => .err e
  | .panicked m => .panicked m

/-- Whether a Go map already binds a key (association-list membership through
lookup). -/
def hasKeyGo (kvs : List (String × Node)) (k : String) : Bool :=
  (lookupGo kvs k).isSome

mutual

/-- Well-formedness invariant every tree decoded from Go carries: no map
binds the same key twice (Go map keys are unique). -/
def wfNode : Node → Bool
  | .seq xs => wfList xs
  | .map kvs => wfKvs kvs
  | _ => true

def wfList : List Node → Bool
  | [] => true
  | v :: rest => wfNode v && wfList rest

def wfKvs : List (String × Node) → Bool
  | [] => true
  | (k, v) :: rest => !hasKeyGo rest k && wfNode v && wfKvs rest

end

/-- A good path part: non-empty and free of the three characters the two
path parsers give structural meaning to ('.', '[', ']'). -/
def goodKey (k : String) : Bool :=
  (k != "") && k.data.all (fun c => c != '.' && c != '[' && c != ']')

/-- A plain mapping key: a good part that moreover does not parse as an
integer, so it can never be mistaken for a sequence index during a walk. -/
def plainKey (k : String) : Bool :=
  goodKey k && (parseGoInt k).isNone

mutual

/-- Every mapping key anywhere in the tree is a plain key (`plainKey`). -/
def keysPlain : Node → Bool
  | .seq xs => keysPlainList xs
  | .map kvs => keysPlainKvs kvs
  | _ => true

def keysPlainList : List Node → Bool
  | [] => true
  | v :: rest => keysPlain v && keysPlainList rest

def keysPlainKvs : List (String × Node) → Bool
  | [] => true
  | (k, v) :: rest => plainKey k && keysPlain v && keysPlainKvs rest

end

/-- Descent through mapping keys only (the reachability notion of the
array-path scanner): follow one existing map binding per segment. -/
def mapChain : Node → List String → Option Node
  | t, [] => some t
  | .map kvs, k :: rest =>
    match lookupGo kvs k with
    | some v => mapChain v rest
    | none => none
  | _, _ :: _ => none

/-- A node the `getKeys` traversal records as a leaf: neither a sequence nor
a map (its default switch case). -/
def isLeafGo : Node → Prop
  | .seq _ => False
  | .map _ => False
  | _ => True

/-- The walk `getKeys` performs to reach a recorded leaf: map segments are
existing keys, sequence segments are the decimal renderings of in-range
indices, and the final node is a leaf. -/
def leafAt : Node → List String → Prop
  | t, [] => isLeafGo t
  | .map kvs, k :: rest => ∃ v, lookupGo kvs k = some v ∧ leafAt v rest
  | .seq xs, s :: rest =>
      ∃ (i : Nat) (h : i < xs.length), s = toString i ∧ leafAt (xs.get ⟨i, h⟩) rest
  | _, _ :: _ => False

/-!  Theorems.  -/

theorem hasKeyGo_of_lookup {kvs : List (String × Node)} {k : String} {v : Node}
    (h : lookupGo kvs k = some v) : hasKeyGo kvs k = true := by
  simp [hasKeyGo, h]

theorem wfKvs_cons {k : String} {v : Node} {rest : List (String × Node)}
    (h : wfKvs ((k, v) :: rest) = true) :
    hasKeyGo rest k = false ∧ wfNode v = true ∧ wfKvs rest = true := by
  have h2 : (!hasKeyGo rest k && wfNode v && wfKvs rest) = true := h
  simp only [Bool.and_eq_true, Bool.not_eq_true'] at h2
  exact ⟨h2.1.1, h2.1.2, h2.2⟩

theorem foldl_pathAppend_cons (path0 k : String) (ks : List String) :
    List.foldl pathAppend path0 (k :: ks) = List.foldl pathAppend (pathAppend path0 k) ks :=
  rfl

mutual

theorem findArrayPathsRec_mem : ∀ (t : Node) (path0 p : String), wfNode t = true →
    (p ∈ findArrayPathsRec t path0 ↔
      ∃ ks xs, mapChain t ks = some (.seq xs) ∧ p = List.foldl pathAppend path0 ks)
  | .null, path0, p, _ => by
      constructor
      · intro hmem; simp [findArrayPathsRec] at hmem
      · rintro ⟨ks, xs, hc, hp⟩
        cases ks with
        | nil => simp [mapChain] at hc
        | cons a as => simp [mapChain] at hc
  | .bool b, path0, p, _ => by
      constructor
      · intro hmem; simp [findArrayPathsRec] at hmem
      · rintro ⟨ks, xs, hc, hp⟩
        cases ks with
        | nil => simp [mapChain] at hc
        | cons a as => simp [mapChain] at hc
  | .int n, path0, p, _ => by
      constructor
      · intro hmem; simp [findArrayPathsRec] at hmem
      · rintro ⟨ks, xs, hc, hp⟩
        cases ks with
        | nil => simp [mapChain] at hc
        | cons a as => simp [mapChain] at hc
  | .float q, path0, p, _ => by
      constructor
      · intro hmem; simp [findArrayPathsRec] at hmem
      · rintro ⟨ks, xs, hc, hp⟩
        cases ks with
        | nil => simp [mapChain] at hc
        | cons a as => simp [mapChain] at hc
  | .str s, path0, p, _ => by
      constructor
      · intro hmem; simp [findArrayPathsRec] at hmem
      · rintro ⟨ks, xs, hc, hp⟩
        cases ks with
        | nil => simp [mapChain] at hc
        | cons a as => simp [mapChain] at hc
  | .seq ys, path0, p, _ => by
      constructor
      · intro hmem
        have hp : p = path0 := by simpa [findArrayPathsRec] using hmem
        exact ⟨[], ys, rfl, hp⟩
      · rintro ⟨ks, xs, hc, hp⟩
        cases ks with
        | nil => simpa [findArrayPathsRec] using hp
        | cons a as => simp [mapChain] at hc
  | .map kvs, path0, p, h => by
      have hk : wfKvs kvs = true := h
      rw [show findArrayPathsRec (.map kvs) path0 = findArrayPathsMap kvs path0 from rfl,
        findArrayPathsMap_mem kvs path0 p hk]
      constructor
      · rintro ⟨k, v, hl, ks, xs, hc, hp⟩
        refine ⟨k :: ks, xs, ?_, hp⟩
        simpa [mapChain, hl] using hc
      · rintro ⟨ks, xs, hc, hp⟩
        cases ks with
        | nil => simp [mapChain] at hc
        | cons k rest =>
            rcases hl : lookupGo kvs k with _ | v
            · simp [mapChain, hl] at hc
            · refine ⟨k, v, hl, rest, xs, ?_, hp⟩
              simpa [mapChain, hl] using hc

theorem findArrayPathsMap_mem :
    ∀ (kvs : List (String × Node)) (path0 p : String), wfKvs kvs = true →
    (p ∈ findArrayPathsMap kvs path0 ↔
      ∃ k v, lookupGo kvs k = some v ∧ ∃ ks xs, mapChain v ks = some (.seq xs) ∧
        p = List.foldl pathAppend (pathAppend path0 k) ks)
  | [], path0, p, _ => by
      simp [findArrayPathsMap, lookupGo]
  | (k, v) :: rest, path0, p, h => by
      obtain ⟨hnk, hv, hrest⟩ := wfKvs_cons h
      rw [show findArrayPathsMap ((k, v) :: rest) path0 =
            findArrayPathsRec v (pathAppend path0 k) ++ findArrayPathsMap rest path0 from rfl]
      rw [List.mem_append, findArrayPathsRec_mem v (pathAppend path0 k) p hv,
        findArrayPathsMap_mem rest path0 p hrest]
      constructor
      · rintro (⟨ks, xs, hc, hp⟩ | ⟨k1, v1, hl1, ks, xs, hc, hp⟩)
        · exact ⟨k, v, by simp [lookupGo], ks, xs, hc, hp⟩
        · have hne : ¬ k = k1 := by
            intro he
            rw [hasKeyGo_of_lookup (he ▸ hl1)] at hnk
            exact Bool.true_eq_false.mp hnk
          exact ⟨k1, v1, by simpa [lookupGo, hne] using hl1, ks, xs, hc, hp⟩
      · rintro ⟨k1, v1, hl1, ks, xs, hc, hp⟩
        by_cases he : k = k1
        · subst he
          obtain rfl : v = v1 := by simpa [lookupGo] using hl1
          exact Or.inl ⟨ks, xs, hc, hp⟩
        · have hl2 : lookupGo rest k1 = some v1 := by simpa [lookupGo, he] using hl1
          exact Or.inr ⟨k1, v1, hl2, ks, xs, hc, hp⟩

end

/-- C9: characterization of the array-path scanner.  For a well-formed tree
(unique map keys, as Go maps guarantee), the scanner's output contains a path
p exactly when p is the dot-joined path (root as the empty string, each key
appended with a dot to a non-empty accumulator) of a Sequence reachable from
the root by descending through Mapping bindings only.  Since the reachability
notion (`mapChain`) cannot pass through a Sequence, a sequence nested inside
another sequence's elements is never reported, and a recorded sequence's
elements are never descended into. -/
theorem C9_array_path_scanner (t : Node) (p : String) (hwf : wfNode t = true) :
    p ∈ findArrayPaths t ↔
      ∃ ks xs, mapChain t ks = some (.seq xs) ∧ p = List.foldl pathAppend "" ks :=
  findArrayPathsRec_mem t "" p hwf

/-- C9 witness: the characterization applied to the concrete well-formed tree
`{a: [[1]], b: {c: []}}` at path `b.c`. -/
theorem C9_array_path_scanner_witness :
    "b.c" ∈ findArrayPaths (.map [("a", .seq [.seq [.int 1]]), ("b", .map [("c", .seq [])])]) ↔
      ∃ ks xs, mapChain (.map [("a", .seq [.seq [.int 1]]), ("b", .map [("c", .seq [])])]) ks =
          some (.seq xs) ∧ "b.c" = List.foldl pathAppend "" ks :=
  C9_array_path_scanner (.map [("a", .seq [.seq [.int 1]]), ("b", .map [("c", .seq [])])])
    "b.c" (by decide)

/-- C1: the Get/Set inverse claim fails on the code exactly where it speaks of
densifying an existing Sequence.  On root `{a: [false]}` and path `a.1`,
`Set` reports success, yet the tree observable through the caller's root is
unchanged — the densifying `append` grows only a local slice header — and the
subsequent `Get` returns an index-out-of-range error instead of the assigned
value. -/
theorem C1_set_then_get_densify_lost :
    GoSet (.map [("a", .seq [.bool false])]) "a.1" (.bool true) =
      (.ok (), .map [("a", .seq [.bool false])]) ∧
    GoGet (.map [("a", .seq [.bool false])]) "a.1" =
      .err (.indexOutOfRange "a.1" 1) :=
  ⟨rfl, rfl⟩

/-- C3: `Get` is not fault-free.  The segment `-1` parses as an integer (so no
InvalidIndex error is produced), passes the sole `int(i) < len(c)` bound check
and reaches the index expression `c[i]`, which faults at run time on the
negative index. -/
theorem C3_get_negative_index_faults :
    parseGoInt "-1" = some (-1) ∧
    GoGet (.seq [.str "x"]) "-1" = .panicked "runtime error: index out of range" :=
  ⟨rfl, rfl⟩

/-- C8: in the tree `{root: {"a.b": 1}}`, the bracketed path `root.[a.b]`
resolves to `1` (the bracketed content is one literal segment, dots included),
while `root.a.b` fails with a nonexistent-map-key error at sub-path
`root.a`. -/
theorem C8_bracket_segment_get :
    GoGet (.map [("root", .map [("a.b", .int 1)])]) "root.[a.b]" = .ok (.int 1) ∧
    GoGet (.map [("root", .map [("a.b", .int 1)])]) "root.a.b" =
      .err (.nonexistentMapKey "root.a") :=
  ⟨rfl, rfl⟩

/-- C10 counterexample: the claim extends the empty-path no-op to "a path that
normalizes to an empty segment list, such as a lone leading dot", but `Set`
with path `"."` does not return success: splitting `"."` yields two empty
parts, the second of which is rejected, so `Set` returns an invalid-path
error. -/
theorem C10_lone_dot_counterexample :
    GoSet (.map [("x", .int 1)]) "." (.int 5) =
      (.err (.invalidPath "."), .map [("x", .int 1)]) :=
  rfl

/-- C10 amended: `Set` with the empty path returns success and leaves every
tree unchanged (no assignment occurs); `Set` with the lone-dot path `"."`
returns an invalid-path error, also leaving the tree unchanged. -/
theorem C10_empty_path_set_noop (root value : Node) :
    GoSet root "" value = (.ok (), root) ∧
    GoSet root "." value = (.err (.invalidPath "."), root) := by
  have h1 : normalizeParts (splitDot "") = some [] := rfl
  have h2 : normalizeParts (splitDot ".") = none := rfl
  exact ⟨by simp [GoSet, h1, setGo], by simp [GoSet, h2]⟩

/-- C5 counterexample: a trailing dot does not produce an empty segment and
does not make `Get` fail.  `splitKeyOnParts "a."` flushes `"a"` at the dot and
then drops the empty final buffer, so `Get` on `{a: 1}` with path `"a."`
returns `1` rather than an invalid-path error. -/
theorem C5_trailing_dot_counterexample :
    splitKeyOnParts "a." = ["a"] ∧
    GoGet (.map [("a", .int 1)]) "a." = .ok (.int 1) :=
  ⟨rfl, rfl⟩

theorem splitKeyOnParts_dot_cons (p : String) :
    splitKeyOnParts ("." ++ p) = "" :: splitKeyOnParts p := by
  cases p with
  | mk cs => rfl

theorem normalizeParts_of_not_mem {parts : List String} (h : ¬ "" ∈ parts) :
    normalizeParts parts = some parts := by
  have ht : ¬ "" ∈ parts.tail := fun hm => h (List.mem_of_mem_tail hm)
  have hh : parts.head? ≠ some "" := fun he => h (List.mem_of_mem_head? he)
  simp [normalizeParts, ht, hh]

theorem normalizeParts_err_of_mem_drop {parts : List String} (h : "" ∈ parts.drop 1) :
    normalizeParts parts = none := by
  have ht : "" ∈ parts.tail := by simpa using h
  simp [normalizeParts, ht]

/-- A trailing dot appended to a bracket-free character list whose last
character is not itself a dot does not change the split: the final buffer the
dot would flush is exactly the buffer the end-of-string flush emits. -/
theorem splitKeyChars_append_dot :
    ∀ (cs : List Char) (buf : List Char),
      (∀ c ∈ cs, c ≠ '[' ∧ c ≠ ']') →
      (cs = [] → buf ≠ []) →
      cs.getLast? ≠ some '.' →
      splitKeyChars (cs ++ ['.']) false buf = splitKeyChars cs false buf
  | [], buf, _, hbuf, _ => by
      have hb : buf ≠ [] := hbuf rfl
      simp [splitKeyChars, hb]
  | c :: cs2, buf, hbr, _, hlast => by
      obtain ⟨hc1, hc2⟩ := hbr c (List.mem_cons_self c cs2)
      by_cases hdot : c = '.'
      · subst hdot
        have hcs2 : cs2 ≠ [] := by
          intro he
          subst he
          exact hlast (by simp)
        have hlast2 : cs2.getLast? ≠ some '.' := by
          cases cs2 with
          | nil => exact absurd rfl hcs2
          | cons d ds => simpa [List.getLast?_cons_cons] using hlast
        have ih := splitKeyChars_append_dot cs2 []
          (fun d hd => hbr d (List.mem_cons_of_mem _ hd)) (fun he => absurd he hcs2) hlast2
        show splitKeyChars (('.' :: cs2) ++ ['.']) false buf = splitKeyChars ('.' :: cs2) false buf
        simp only [List.cons_append]
        simp [splitKeyChars, ih]
      · have hlast2 : cs2.getLast? ≠ some '.' := by
          cases cs2 with
          | nil => simp
          | cons d ds => simpa [List.getLast?_cons_cons] using hlast
        have ih := splitKeyChars_append_dot cs2 (c :: buf)
          (fun d hd => hbr d (List.mem_cons_of_mem c hd)) (by simp) hlast2
        show splitKeyChars ((c :: cs2) ++ ['.']) false buf = splitKeyChars (c :: cs2) false buf
        simp only [List.cons_append]
        simp [splitKeyChars, hc1, hc2, hdot, ih]

/-- C5 amended: read-path handling of empty segments.  (i) A single leading
empty segment is silently dropped: when the rest of the path has no empty
segment, prepending a dot does not change the result of `Get`.  (ii) An empty
segment at any later position of the split (e.g. from two consecutive dots)
makes `Get` return an InvalidPath error.  (iii) But a trailing dot produces no
empty segment: for a bracket-free non-empty path not already ending in a dot,
appending a dot does not change the split at all, and `Get` is unchanged on
any path whose split has no empty segment past the head (instead of the
claimed InvalidPath error). -/
theorem C5_path_normalization_amended :
    (∀ (root : Node) (p : String), ¬ "" ∈ splitKeyOnParts p →
      GoGet root ("." ++ p) = GoGet root p) ∧
    (∀ (root : Node) (p : String), "" ∈ (splitKeyOnParts p).drop 1 →
      GoGet root p = .err (.invalidPath p)) ∧
    (∀ (s : String), (∀ c ∈ s.data, c ≠ '[' ∧ c ≠ ']') →
      s.data.getLast? ≠ some '.' → s ≠ "" →
      splitKeyOnParts (s ++ ".") = splitKeyOnParts s ∧
      (∀ root : Node, ¬ "" ∈ (splitKeyOnParts s).drop 1 →
        GoGet root (s ++ ".") = GoGet root s)) := by
  refine ⟨fun root p h => ?_, fun root p h => ?_, fun s hbr hlast hne => ?_⟩
  · have h1 : normalizeParts (splitKeyOnParts ("." ++ p)) = some (splitKeyOnParts p) := by
      rw [splitKeyOnParts_dot_cons]
      simp [normalizeParts, h]
    have h2 : normalizeParts (splitKeyOnParts p) = some (splitKeyOnParts p) :=
      normalizeParts_of_not_mem h
    simp [GoGet, h1, h2]
  · simp [GoGet, normalizeParts_err_of_mem_drop h]
  · have hdata : (s ++ ".").data = s.data ++ ['.'] := by
      cases s with
      | mk cs => rfl
    have hcs : s.data ≠ [] := by
      cases s with
      | mk cs =>
          intro he
          exact hne (by simpa using congrArg String.mk he)
    have hsplit : splitKeyOnParts (s ++ ".") = splitKeyOnParts s := by
      show splitKeyChars (s ++ ".").data false [] = splitKeyChars s.data false []
      rw [hdata]
      exact splitKeyChars_append_dot s.data [] hbr (fun he => absurd he hcs) hlast
    refine ⟨hsplit, fun root hd => ?_⟩
    have ht : ¬ "" ∈ (splitKeyOnParts s).tail := by simpa using hd
    rcases hhead : (splitKeyOnParts s).head? with _ | p0
    · have hnil : splitKeyOnParts s = [] := by
        cases hx : splitKeyOnParts s with
        | nil => rfl
        | cons a as => rw [hx] at hhead; simp at hhead
      simp [GoGet, hsplit, hnil, normalizeParts]
    · by_cases hp0 : p0 = ""
      · subst hp0
        have h1 : normalizeParts (splitKeyOnParts s) = some ((splitKeyOnParts s).tail) := by
          simp [normalizeParts, ht, hhead]
        simp [GoGet, hsplit, h1]
      · have hh2 : (splitKeyOnParts s).head? ≠ some "" := by
          rw [hhead]
          simp [hp0]
        have h1 : normalizeParts (splitKeyOnParts s) = some (splitKeyOnParts s) := by
          simp [normalizeParts, ht, hh2]
        simp [GoGet, hsplit, h1]

/-- C5 witness: the amended theorem applied concretely — a leading dot is
dropped (`.a` behaves like `a`), two consecutive dots are an InvalidPath
error, and a trailing dot is ignored (`a` with a dot appended behaves like
`a`). -/
theorem C5_path_normalization_witness :
    GoGet (.map [("a", .int 1)]) ("." ++ "a") = GoGet (.map [("a", .int 1)]) "a" ∧
    GoGet (.map [("a", .int 1)]) "a..b" = .err (.invalidPath "a..b") ∧
    GoGet (.map [("a", .int 1)]) ("a" ++ ".") = GoGet (.map [("a", .int 1)]) "a" :=
  ⟨C5_path_normalization_amended.1 (.map [("a", .int 1)]) "a" (by decide),
   C5_path_normalization_amended.2.1 (.map [("a", .int 1)]) "a..b" (by decide),
   (C5_path_normalization_amended.2.2 "a" (by decide) (by decide) (by decide)).2
     (.map [("a", .int 1)]) (by decide)⟩

/-- C6 counterexample: on a String leaf the Bool accessor accepts more than
the canonical `true`/`false` literals.  `strconv.ParseBool` also accepts
`"1"`, so `Bool` on `{k: "1"}` succeeds with `true` even though `"1"` is
neither canonical literal. -/
theorem C6_parsebool_counterexample :
    boolAcc (.map [("k", .str "1")]) "k" = .ok true ∧
    ("1" = "true" → False) ∧ ("1" = "false" → False) :=
  ⟨rfl, by decide, by decide⟩

/-- C6 amended: `Bool` passes a Boolean leaf through unchanged; on a String
leaf it behaves exactly as `strconv.ParseBool` (accepting the twelve literals
1/t/T/true/TRUE/True and 0/f/F/false/FALSE/False, and failing with a ParseBool
syntax error — not a type mismatch — on any other string); on every other
variant it fails with a type-mismatch error. -/
theorem C6_bool_accessor_amended (root : Node) (path : String) :
    (∀ b, GoGet root path = .ok (.bool b) → boolAcc root path = .ok b) ∧
    (∀ s, GoGet root path = .ok (.str s) → boolAcc root path = parseGoBool s) ∧
    (∀ n, GoGet root path = .ok n → (∀ b, n ≠ .bool b) → (∀ s, n ≠ .str s) →
      boolAcc root path = .err (.typeMismatch "bool or string" (goTypeName n))) := by
  refine ⟨fun b h => by simp [boolAcc, h],
          fun s h => by simp [boolAcc, h],
          fun n h hb hs => ?_⟩
  cases n with
  | bool b => exact absurd rfl (hb b)
  | str s => exact absurd rfl (hs s)
  | null => simp [boolAcc, h]
  | int m => simp [boolAcc, h]
  | float q => simp [boolAcc, h]
  | seq xs => simp [boolAcc, h]
  | map kvs => simp [boolAcc, h]

/-- C6 witness: the amended theorem applied to the tree `{k: "t"}` — the Bool
accessor on the string leaf `"t"` returns what `strconv.ParseBool` returns
(namely `true`). -/
theorem C6_bool_accessor_witness :
    boolAcc (.map [("k", .str "t")]) "k" = parseGoBool "t" :=
  (C6_bool_accessor_amended (.map [("k", .str "t")]) "k").2.1 "t" rfl

/-- C2 counterexample: with overlay `{a: [[20]], "a.0": [99]}` (whose array
paths are `a` and the literal dotted key `a.0`) and base
`{a: [[10, 11], 12]}`, the path `a.0` is an overlay array path that resolves
to a Sequence in both configs (`[10, 11]` in the base, `[20]` in the overlay),
yet the extended result holds `[20]` (length 1) at `a.0`, not the claimed
element-wise merge of length `max 2 1 = 2` retaining the base's element at
index 1. -/
theorem C2_overlapping_array_paths_counterexample :
    extendGo (.map [("a", .seq [.seq [.int 10, .int 11], .int 12])])
        (.map [("a", .seq [.seq [.int 20]]), ("a.0", .seq [.int 99])]) =
      .ok (.map [("a", .seq [.seq [.int 20], .int 12])]) ∧
    "a.0" ∈ findArrayPaths (.map [("a", .seq [.seq [.int 20]]), ("a.0", .seq [.int 99])]) ∧
    GoGet (.map [("a", .seq [.seq [.int 10, .int 11], .int 12])]) "a.0" =
      .ok (.seq [.int 10, .int 11]) ∧
    GoGet (.map [("a", .seq [.seq [.int 20]]), ("a.0", .seq [.int 99])]) "a.0" =
      .ok (.seq [.int 20]) ∧
    GoGet (.map [("a", .seq [.seq [.int 20], .int 12])]) "a.0" = .ok (.seq [.int 20]) ∧
    (mergeArrays [.int 10, .int 11] [.int 20]).length = 2 ∧
    (List.length [Node.int 20]) = 1 :=
  ⟨rfl, by decide, rfl, rfl, rfl, rfl, rfl⟩

/-!  String split/join lemmas used by the Extend correctness proof.  -/

theorem goodKey_spec {k : String} (h : goodKey k = true) :
    k ≠ "" ∧ ∀ c ∈ k.data, c ≠ '.' ∧ c ≠ '[' ∧ c ≠ ']' := by
  simp only [goodKey, Bool.and_eq_true, List.all_eq_true, bne_iff_ne, ne_eq] at h
  refine ⟨h.1, fun c hc => ?_⟩
  have h2 := h.2 c hc
  simpa [and_assoc] using h2

theorem mk_data (s : String) : String.mk s.data = s := by
  cases s with
  | mk cs => rfl

theorem ne_empty_iff_data {s : String} : s ≠ "" ↔ s.data ≠ [] := by
  cases s with
  | mk cs =>
      constructor
      · intro h he
        exact h (by simpa using congrArg String.mk he)
      · intro h he
        exact h (by simpa using congrArg String.data he)

theorem splitDotChars_ne_nil : ∀ (cs buf : List Char), splitDotChars cs buf ≠ []
  | [], buf => by simp [splitDotChars]
  | c :: cs, buf => by
      by_cases hc : c = '.'
      · simp [splitDotChars, hc]
      · simpa [splitDotChars, hc] using splitDotChars_ne_nil cs (c :: buf)

theorem splitDotChars_flat : ∀ (cs ds buf : List Char), (∀ c ∈ cs, c ≠ '.') →
    splitDotChars (cs ++ ds) buf = splitDotChars ds (cs.reverse ++ buf)
  | [], ds, buf, _ => by simp
  | c :: cs, ds, buf, h => by
      have hc : c ≠ '.' := h c (List.mem_cons_self c cs)
      have ih := splitDotChars_flat cs ds (c :: buf) (fun d hd => h d (List.mem_cons_of_mem _ hd))
      simp [splitDotChars, hc, ih, List.append_assoc]

theorem joinDots_cons (p : String) (ps : List String) (h : ps ≠ []) :
    joinDots (p :: ps) = p ++ "." ++ joinDots ps := by
  cases ps with
  | nil => exact absurd rfl h
  | cons q rest => rfl

theorem joinDots_append : ∀ (l1 l2 : List String), l1 ≠ [] → l2 ≠ [] →
    joinDots (l1 ++ l2) = joinDots l1 ++ "." ++ joinDots l2
  | [], _, h, _ => absurd rfl h
  | [p], l2, _, h2 => by
      rw [show ([p] ++ l2 : List String) = p :: l2 from rfl, joinDots_cons p l2 h2]
      rfl
  | p :: q :: rest, l2, _, h2 => by
      have ih := joinDots_append (q :: rest) l2 (by simp) h2
      rw [show ((p :: q :: rest) ++ l2 : List String) = p :: ((q :: rest) ++ l2) from rfl,
        joinDots_cons p ((q :: rest) ++ l2) (by simp),
        joinDots_cons p (q :: rest) (by simp), ih]
      simp [String.append_assoc]

theorem splitDot_join : ∀ (ps : List String), ps ≠ [] → (∀ p ∈ ps, goodKey p = true) →
    splitDot (joinDots ps) = ps
  | [], h, _ => absurd rfl h
  | [p], _, h => by
      have hg := goodKey_spec (h p (List.mem_cons_self p []))
      show splitDotChars (joinDots [p]).data [] = [p]
      rw [show joinDots [p] = p from rfl]
      have := splitDotChars_flat p.data [] [] (fun c hc => (hg.2 c hc).1)
      simp only [List.append_nil] at this
      rw [this]
      simp [splitDotChars, mk_data]
  | p :: q :: rest, _, h => by
      have hg := goodKey_spec (h p (List.mem_cons_self p (q :: rest)))
      have ih := splitDot_join (q :: rest) (by simp)
        (fun x hx => h x (List.mem_cons_of_mem _ hx))
      show splitDotChars (joinDots (p :: q :: rest)).data [] = p :: q :: rest
      rw [joinDots_cons p (q :: rest) (by simp)]
      have hdata : (p ++ "." ++ joinDots (q :: rest)).data =
          p.data ++ ('.' :: (joinDots (q :: rest)).data) := by
        simp
      rw [hdata, splitDotChars_flat p.data ('.' :: (joinDots (q :: rest)).data) []
        (fun c hc => (hg.2 c hc).1)]
      simp only [List.append_nil]
      rw [show splitDotChars ('.' :: (joinDots (q :: rest)).data) p.data.reverse =
            String.mk p.data.reverse.reverse :: splitDotChars (joinDots (q :: rest)).data []
          from rfl]
      rw [List.reverse_reverse, mk_data]
      exact congrArg (p :: ·) ih

theorem splitKeyChars_flat : ∀ (cs ds buf : List Char),
    (∀ c ∈ cs, c ≠ '.' ∧ c ≠ '[' ∧ c ≠ ']') →
    splitKeyChars (cs ++ ds) false buf = splitKeyChars ds false (cs.reverse ++ buf)
  | [], ds, buf, _ => by simp
  | c :: cs, ds, buf, h => by
      obtain ⟨h1, h2, h3⟩ := h c (List.mem_cons_self c cs)
      have ih := splitKeyChars_flat cs ds (c :: buf) (fun d hd => h d (List.mem_cons_of_mem _ hd))
      simp [splitKeyChars, h1, h2, h3, ih, List.append_assoc]

theorem splitKey_join : ∀ (ps : List String), ps ≠ [] → (∀ p ∈ ps, goodKey p = true) →
    splitKeyOnParts (joinDots ps) = ps
  | [], h, _ => absurd rfl h
  | [p], _, h => by
      have hg := goodKey_spec (h p (List.mem_cons_self p []))
      show splitKeyChars (joinDots [p]).data false [] = [p]
      rw [show joinDots [p] = p from rfl]
      have := splitKeyChars_flat p.data [] [] (fun c hc => hg.2 c hc)
      simp only [List.append_nil] at this
      rw [this]
      have hne : p.data.reverse ++ [] ≠ [] := by
        simp
        exact ne_empty_iff_data.mp hg.1
      simp only [List.append_nil] at hne ⊢
      rw [show splitKeyChars [] false p.data.reverse =
            if p.data.reverse = [] then [] else [String.mk p.data.reverse.reverse] from rfl]
      simp [hne, mk_data]
  | p :: q :: rest, _, h => by
      have hg := goodKey_spec (h p (List.mem_cons_self p (q :: rest)))
      have ih := splitKey_join (q :: rest) (by simp)
        (fun x hx => h x (List.mem_cons_of_mem _ hx))
      show splitKeyChars (joinDots (p :: q :: rest)).data false [] = p :: q :: rest
      rw [joinDots_cons p (q :: rest) (by simp)]
      have hdata : (p ++ "." ++ joinDots (q :: rest)).data =
          p.data ++ ('.' :: (joinDots (q :: rest)).data) := by
        simp
      rw [hdata, splitKeyChars_flat p.data ('.' :: (joinDots (q :: rest)).data) []
        (fun c hc => hg.2 c hc)]
      simp only [List.append_nil]
      rw [show splitKeyChars ('.' :: (joinDots (q :: rest)).data) false p.data.reverse =
            String.mk p.data.reverse.reverse :: splitKeyChars (joinDots (q :: rest)).data false []
          from rfl]
      rw [List.reverse_reverse, mk_data]
      exact congrArg (p :: ·) ih

theorem joinDots_splitDotChars : ∀ (cs buf : List Char),
    joinDots (splitDotChars cs buf) = String.mk (buf.reverse ++ cs)
  | [], buf => by simp [splitDotChars, joinDots]
  | c :: cs, buf => by
      by_cases hc : c = '.'
      · subst hc
        rw [show splitDotChars ('.' :: cs) buf =
              String.mk buf.reverse :: splitDotChars cs [] from rfl,
          joinDots_cons _ _ (splitDotChars_ne_nil cs []), joinDots_splitDotChars cs []]
        show String.mk (buf.reverse ++ ['.'] ++ ([] ++ cs)) = String.mk (buf.reverse ++ '.' :: cs)
        simp
      · rw [show splitDotChars (c :: cs) buf = splitDotChars cs (c :: buf) from by
            simp [splitDotChars, hc],
          joinDots_splitDotChars cs (c :: buf)]
        simp

theorem joinDots_splitDot (s : String) : joinDots (splitDot s) = s := by
  rw [show splitDot s = splitDotChars s.data [] from rfl, joinDots_splitDotChars]
  simp [mk_data]

theorem joinDots_inj {l1 l2 : List String} (h1 : l1 ≠ []) (h2 : l2 ≠ [])
    (g1 : ∀ p ∈ l1, goodKey p = true) (g2 : ∀ p ∈ l2, goodKey p = true)
    (h : joinDots l1 = joinDots l2) : l1 = l2 := by
  have e1 := splitDot_join l1 h1 g1
  have e2 := splitDot_join l2 h2 g2
  rw [← e1, ← e2, h]

theorem foldl_pathAppend_acc : ∀ (ks : List String) (acc : String), acc ≠ "" → ks ≠ [] →
    List.foldl pathAppend acc ks = acc ++ "." ++ joinDots ks
  | [], _, _, h => absurd rfl h
  | [k], acc, ha, _ => by
      show pathAppend acc k = acc ++ "." ++ joinDots [k]
      simp [pathAppend, ha, joinDots]
  | k :: k2 :: rest, acc, ha, _ => by
      have hacc2 : pathAppend acc k ≠ "" := by
        rw [show pathAppend acc k = acc ++ "." ++ k from by simp [pathAppend, ha]]
        rw [ne_empty_iff_data]
        simp
      have ih := foldl_pathAppend_acc (k2 :: rest) (pathAppend acc k) hacc2 (by simp)
      show List.foldl pathAppend (pathAppend acc k) (k2 :: rest) = _
      rw [ih, show pathAppend acc k = acc ++ "." ++ k from by simp [pathAppend, ha],
        joinDots_cons k (k2 :: rest) (by simp)]
      simp [String.append_assoc]

theorem foldl_pathAppend_root : ∀ (ks : List String), ks ≠ [] → (∀ k ∈ ks, k ≠ "") →
    List.foldl pathAppend "" ks = joinDots ks
  | [], h, _ => absurd rfl h
  | k :: rest, _, hk => by
      show List.foldl pathAppend (pathAppend "" k) rest = joinDots (k :: rest)
      rw [show pathAppend "" k = k from by simp [pathAppend]]
      cases rest with
      | nil => rfl
      | cons k2 rest2 =>
          rw [foldl_pathAppend_acc (k2 :: rest2) k (hk k (List.mem_cons_self _ _)) (by simp),
            joinDots_cons k (k2 :: rest2) (by simp)]

theorem goHasPrefix_join_strict {ks1 suffix : List String} (h1 : ks1 ≠ []) (h2 : suffix ≠ []) :
    goHasPrefix (joinDots (ks1 ++ suffix)) (joinDots ks1 ++ ".") = true := by
  rw [joinDots_append ks1 suffix h1 h2]
  show (((joinDots ks1 ++ ".").data).isPrefixOf
    ((joinDots ks1 ++ "." ++ joinDots suffix).data)) = true
  apply List.isPrefixOf_iff_prefix.mpr
  exact ⟨(joinDots suffix).data, by simp⟩

/-!  Decimal index segments (`strconv.Itoa`) are plain dot-free parts.  -/

theorem digitChar_isDigit {m : Nat} (h : m < 10) : (Nat.digitChar m).isDigit = true := by
  interval_cases m <;> decide

theorem isDigit_not_special {c : Char} (h : c.isDigit = true) :
    c ≠ '.' ∧ c ≠ '[' ∧ c ≠ ']' :=
  ⟨fun hc => by subst hc; exact absurd h (by decide),
   fun hc => by subst hc; exact absurd h (by decide),
   fun hc => by subst hc; exact absurd h (by decide)⟩

theorem toDigitsCore_step (fuel n : Nat) (ds : List Char) :
    Nat.toDigitsCore 10 (fuel + 1) n ds =
      if n / 10 = 0 then Nat.digitChar (n % 10) :: ds
      else Nat.toDigitsCore 10 fuel (n / 10) (Nat.digitChar (n % 10) :: ds) := rfl

theorem toDigitsCore_digits : ∀ (fuel n : Nat) (ds : List Char),
    (∀ c ∈ ds, c.isDigit = true) → ∀ c ∈ Nat.toDigitsCore 10 fuel n ds, c.isDigit = true
  | 0, n, ds, h => by
      intro c hc
      exact h c hc
  | fuel + 1, n, ds, h => by
      intro c hc
      rw [toDigitsCore_step] at hc
      have hext : ∀ x ∈ Nat.digitChar (n % 10) :: ds, x.isDigit = true := by
        intro x hx
        rcases List.mem_cons.mp hx with rfl | hx2
        · exact digitChar_isDigit (Nat.mod_lt _ (by norm_num))
        · exact h x hx2
      by_cases hz : n / 10 = 0
      · rw [if_pos hz] at hc
        exact hext c hc
      · rw [if_neg hz] at hc
        exact toDigitsCore_digits fuel (n / 10) _ hext c hc

theorem toDigitsCore_ne_nil : ∀ (fuel n : Nat) (ds : List Char), ds ≠ [] →
    Nat.toDigitsCore 10 fuel n ds ≠ []
  | 0, _, _, h => h
  | fuel + 1, n, ds, _ => by
      rw [toDigitsCore_step]
      by_cases hz : n / 10 = 0
      · simp [hz]
      · rw [if_neg hz]
        exact toDigitsCore_ne_nil fuel _ _ (by simp)

theorem natRepr_data : (Nat.repr n).data = Nat.toDigits 10 n := rfl

theorem goodKey_natRepr (n : Nat) : goodKey (Nat.repr n) = true := by
  have hdig : ∀ c ∈ (Nat.repr n).data, c.isDigit = true := by
    rw [natRepr_data]
    exact toDigitsCore_digits (n + 1) n [] (by simp)
  have hne : (Nat.repr n).data ≠ [] := by
    rw [natRepr_data]
    show Nat.toDigitsCore 10 (n + 1) n [] ≠ []
    rw [toDigitsCore_step]
    by_cases hz : n / 10 = 0
    · simp [hz]
    · rw [if_neg hz]
      exact toDigitsCore_ne_nil n _ _ (by simp)
  simp only [goodKey, Bool.and_eq_true, List.all_eq_true, bne_iff_ne, ne_eq]
  refine ⟨by simpa using ne_empty_iff_data.mpr hne, fun c hc => ?_⟩
  obtain ⟨h1, h2, h3⟩ := isDigit_not_special (hdig c hc)
  simp [h1, h2, h3]

theorem toString_nat_eq_repr (n : Nat) : toString n = Nat.repr n := rfl

/-!  Lookup and map-assignment lemmas.  -/

theorem lookupGo_mapSet_self : ∀ (kvs : List (String × Node)) (k : String) (v : Node),
    lookupGo (mapSet kvs k v) k = some v
  | [], k, v => by simp [mapSet, lookupGo]
  | (k1, w) :: rest, k, v => by
      by_cases h : k1 = k
      · simp [mapSet, h, lookupGo]
      · simp [mapSet, h, lookupGo, lookupGo_mapSet_self rest k v]

theorem lookupGo_mapSet_ne : ∀ (kvs : List (String × Node)) (k k' : String) (v : Node),
    k' ≠ k → lookupGo (mapSet kvs k v) k' = lookupGo kvs k'
  | [], k, k', v, h => by
      have : k ≠ k' := fun he => h he.symm
      simp [mapSet, lookupGo, this]
  | (k1, w) :: rest, k, k', v, h => by
      by_cases h1 : k1 = k
      · subst h1
        have : k1 ≠ k' := fun he => h he.symm
        simp [mapSet, lookupGo, this]
      · by_cases h2 : k1 = k'
        · subst h2
          simp [mapSet, lookupGo, h1, h]
        · simp [mapSet, h1, lookupGo, h2, lookupGo_mapSet_ne rest k k' v h]

/-!  mapChain composition lemmas.  -/

theorem mapChain_append : ∀ (l1 l2 : List String) (t : Node),
    mapChain t (l1 ++ l2) = (mapChain t l1).bind (fun w => mapChain w l2)
  | [], l2, t => by simp [mapChain]
  | k :: rest, l2, t => by
      cases t with
      | map kvs =>
          show mapChain (.map kvs) (k :: (rest ++ l2)) = _
          rcases hl : lookupGo kvs k with _ | v
          · simp [mapChain, hl]
          · simp [mapChain, hl, mapChain_append rest l2 v]
      | null => simp [mapChain]
      | bool b => simp [mapChain]
      | int m => simp [mapChain]
      | float q => simp [mapChain]
      | str s => simp [mapChain]
      | seq xs => simp [mapChain]

theorem mapChain_cons_forces_map {t : Node} {k : String} {rest : List String} {v : Node}
    (h : mapChain t (k :: rest) = some v) : ∃ kvs, t = .map kvs := by
  cases t with
  | map kvs => exact ⟨kvs, rfl⟩
  | null => simp [mapChain] at h
  | bool b => simp [mapChain] at h
  | int m => simp [mapChain] at h
  | float q => simp [mapChain] at h
  | str s => simp [mapChain] at h
  | seq xs => simp [mapChain] at h

theorem keysPlainKvs_lookup : ∀ {kvs : List (String × Node)} {k : String} {v : Node},
    keysPlainKvs kvs = true → lookupGo kvs k = some v →
    plainKey k = true ∧ keysPlain v = true := by
  intro kvs
  induction kvs with
  | nil => intro k v _ hl; simp [lookupGo] at hl
  | cons kv rest ih =>
      obtain ⟨k1, v1⟩ := kv
      intro k v hp hl
      have hp2 : (plainKey k1 && keysPlain v1 && keysPlainKvs rest) = true := hp
      simp only [Bool.and_eq_true] at hp2
      by_cases he : k1 = k
      · subst he
        obtain rfl : v1 = v := by simpa [lookupGo] using hl
        exact ⟨hp2.1.1, hp2.1.2⟩
      · have hl2 : lookupGo rest k = some v := by simpa [lookupGo, he] using hl
        exact ih hp2.2 hl2

theorem wfKvs_lookup : ∀ {kvs : List (String × Node)} {k : String} {v : Node},
    wfKvs kvs = true → lookupGo kvs k = some v → wfNode v = true := by
  intro kvs
  induction kvs with
  | nil => intro k v _ hl; simp [lookupGo] at hl
  | cons kv rest ih =>
      obtain ⟨k1, v1⟩ := kv
      intro k v hw hl
      obtain ⟨_, hv1, hrest⟩ := wfKvs_cons hw
      by_cases he : k1 = k
      · subst he
        obtain rfl : v1 = v := by simpa [lookupGo] using hl
        exact hv1
      · exact ih hrest (by simpa [lookupGo, he] using hl)

theorem mapChain_keys : ∀ (ks : List String) (t w : Node),
    keysPlain t = true → mapChain t ks = some w →
    (∀ k ∈ ks, plainKey k = true) ∧ keysPlain w = true
  | [], t, w, hp, hc => by
      obtain rfl : t = w := by simpa [mapChain] using hc
      exact ⟨by simp, hp⟩
  | k :: rest, t, w, hp, hc => by
      obtain ⟨kvs, rfl⟩ := mapChain_cons_forces_map hc
      rcases hl : lookupGo kvs k with _ | v
      · simp [mapChain, hl] at hc
      · have hc2 : mapChain v rest = some w := by simpa [mapChain, hl] using hc
        have hkv := @keysPlainKvs_lookup kvs _ _ hp hl
        have ih := mapChain_keys rest v w hkv.2 hc2
        refine ⟨fun x hx => ?_, ih.2⟩
        rcases List.mem_cons.mp hx with rfl | hx2
        · exact hkv.1
        · exact ih.1 x hx2

theorem wf_mapChain : ∀ (ks : List String) (t w : Node),
    wfNode t = true → mapChain t ks = some w → wfNode w = true
  | [], t, w, hw, hc => by
      obtain rfl : t = w := by simpa [mapChain] using hc
      exact hw
  | k :: rest, t, w, hw, hc => by
      obtain ⟨kvs, rfl⟩ := mapChain_cons_forces_map hc
      rcases hl : lookupGo kvs k with _ | v
      · simp [mapChain, hl] at hc
      · have hc2 : mapChain v rest = some w := by simpa [mapChain, hl] using hc
        exact wf_mapChain rest v w (wfKvs_lookup hw hl) hc2

/-!  Evaluation and inversion lemmas for the Get and Set walks.  -/

theorem getLoop_map_cons (kvs : List (String × Node)) (part : String) (rest seen : List String) :
    getLoop (.map kvs) (part :: rest) seen =
      match lookupGo kvs part with
      | some v => getLoop v rest (seen ++ [part])
      | none => .err (.nonexistentMapKey (joinDots (seen ++ [part]))) := rfl

theorem getLoop_seq_none {c : List Node} {part : String} (rest seen : List String)
    (hp : parseGoInt part = none) :
    getLoop (.seq c) (part :: rest) seen =
      .err (.invalidListIndex (joinDots (seen ++ [part]))) := by
  simp [getLoop, hp]

theorem getLoop_seq_some {c : List Node} {part : String} {i : Int}
    (hp : parseGoInt part = some i) (h0 : 0 ≤ i) (hlt : i.toNat < c.length)
    (rest seen : List String) :
    getLoop (.seq c) (part :: rest) seen =
      getLoop (c.get ⟨i.toNat, hlt⟩) rest (seen ++ [part]) := by
  have hlt2 : i < (c.length : Int) := by omega
  simp [getLoop, hp, hlt2, h0]

theorem getLoop_map_ok {kvs : List (String × Node)} {part : String} {rest seen : List String}
    {v : Node} (h : getLoop (.map kvs) (part :: rest) seen = .ok v) :
    ∃ child, lookupGo kvs part = some child ∧ getLoop child rest (seen ++ [part]) = .ok v := by
  rcases hl : lookupGo kvs part with _ | child
  · rw [getLoop_map_cons, hl] at h
    exact absurd h (by simp)
  · rw [getLoop_map_cons, hl] at h
    exact ⟨child, rfl, h⟩

theorem getLoop_seq_ok {c : List Node} {part : String} {rest seen : List String} {v : Node}
    (h : getLoop (.seq c) (part :: rest) seen = .ok v) :
    ∃ i, parseGoInt part = some i ∧ 0 ≤ i ∧ ∃ hlt : i.toNat < c.length,
      getLoop (c.get ⟨i.toNat, hlt⟩) rest (seen ++ [part]) = .ok v := by
  rcases hp : parseGoInt part with _ | i
  · rw [getLoop_seq_none rest seen hp] at h
    exact absurd h (by simp)
  · by_cases h0 : 0 ≤ i
    · by_cases hlt : i.toNat < c.length
      · refine ⟨i, rfl, h0, hlt, ?_⟩
        rw [getLoop_seq_some hp h0 hlt] at h
        exact h
      · have hge : ¬ i < (c.length : Int) := by omega
        simp [getLoop, hp, hge] at h
    · have hlt2 : i < (c.length : Int) := by omega
      simp [getLoop, hp, hlt2, h0] at h

theorem setGo_map_terminal (kvs : List (String × Node)) (part : String) (w : Node) :
    setGo (.map kvs) [part] w = (.ok (), .map (mapSet kvs part w)) := rfl

theorem setGo_map_hit {kvs : List (String × Node)} {part : String} {child : Node}
    (hl : lookupGo kvs part = some child) (r2 : String) (rrest : List String) (w : Node) :
    setGo (.map kvs) (part :: r2 :: rrest) w =
      ((setGo child (r2 :: rrest) w).1,
        .map (mapSet kvs part (setGo child (r2 :: rrest) w).2)) := by
  simp [setGo, hl]

theorem setGo_map_miss_ok {kvs : List (String × Node)} {part : String}
    (hl : lookupGo kvs part = none) {next : String} {fresh : Node}
    (hm : materializeFor next = .ok fresh) (rrest : List String) (w : Node) :
    setGo (.map kvs) (part :: next :: rrest) w =
      ((setGo fresh (next :: rrest) w).1,
        .map (mapSet kvs part (setGo fresh (next :: rrest) w).2)) := by
  simp [setGo, hl, hm]

theorem setGo_map_miss_panic {kvs : List (String × Node)} {part : String}
    (hl : lookupGo kvs part = none) {next : String} {m : String}
    (hm : materializeFor next = .panicked m) (rrest : List String) (w : Node) :
    setGo (.map kvs) (part :: next :: rrest) w = (.panicked m, .map kvs) := by
  simp [setGo, hl, hm]

theorem materializeFor_not_err (next : String) : ∀ e, materializeFor next ≠ .err e := by
  intro e
  unfold materializeFor
  rcases parseGoInt next with _ | i
  · simp
  · by_cases h : i + 1 < 0 <;> simp [h]

theorem take_length_set (c : List Node) (i : Nat) (w : Node) :
    ((c.set i w).take c.length) = c.set i w := by
  apply List.take_of_length_le
  simp

theorem setGo_seq_terminal {c : List Node} {part : String} {i : Int}
    (hp : parseGoInt part = some i) (h0 : 0 ≤ i) (hlt : i.toNat < c.length) (w : Node) :
    setGo (.seq c) [part] w = (.ok (), .seq (c.set i.toNat w)) := by
  have hneg : ¬ i < 0 := by omega
  have hgrow : i.toNat + 1 - c.length = 0 := by omega
  simp [setGo, hp, hneg, hgrow, take_length_set]

theorem setGo_seq_rec {c : List Node} {part : String} {i : Int}
    (hp : parseGoInt part = some i) (h0 : 0 ≤ i) (hlt : i.toNat < c.length)
    (hnn : isNullNode (c.get ⟨i.toNat, hlt⟩) = false) (r2 : String) (rrest : List String)
    (w : Node) :
    setGo (.seq c) (part :: r2 :: rrest) w =
      ((setGo (c.get ⟨i.toNat, hlt⟩) (r2 :: rrest) w).1,
        .seq (c.set i.toNat (setGo (c.get ⟨i.toNat, hlt⟩) (r2 :: rrest) w).2)) := by
  have hneg : ¬ i < 0 := by omega
  have hgrow : i.toNat + 1 - c.length = 0 := by omega
  have hgd : List.getD c i.toNat Node.null = c.get ⟨i.toNat, hlt⟩ := by
    simp [List.getD_eq_getElem?_getD, List.getElem?_eq_getElem hlt]
  simp only [setGo, hp, hneg, if_false, hgrow, List.replicate_zero, List.append_nil, hgd, hnn,
    Bool.false_eq_true, take_length_set]

/-- Following an existing resolvable path, `Set` succeeds and a subsequent
`Get` of the same path sees exactly the assigned value: the walk passes only
through existing containers, every sequence index is in range, and every
write is at an index below the caller's slice length, hence visible. -/
theorem setGo_at_get_ok : ∀ (ks : List String) (n w v : Node) (seen : List String),
    ks ≠ [] → getLoop n ks seen = .ok v →
    (setGo n ks w).1 = .ok () ∧ getLoop (setGo n ks w).2 ks seen = .ok w
  | [], _, _, _, _, h, _ => absurd rfl h
  | part :: rest, n, w, v, seen, _, hget => by
      cases n with
      | map kvs =>
          obtain ⟨child, hl, hget2⟩ := getLoop_map_ok hget
          cases rest with
          | nil =>
              refine ⟨rfl, ?_⟩
              rw [setGo_map_terminal, getLoop_map_cons, lookupGo_mapSet_self]
              rfl
          | cons r2 rrest =>
              have ih := setGo_at_get_ok (r2 :: rrest) child w v (seen ++ [part]) (by simp) hget2
              rw [setGo_map_hit hl]
              refine ⟨ih.1, ?_⟩
              rw [getLoop_map_cons, lookupGo_mapSet_self]
              exact ih.2
      | seq c =>
          obtain ⟨i, hp, h0, hlt, hget2⟩ := getLoop_seq_ok hget
          cases rest with
          | nil =>
              rw [setGo_seq_terminal hp h0 hlt]
              refine ⟨rfl, ?_⟩
              have hlt2 : i.toNat < (c.set i.toNat w).length := by simpa using hlt
              rw [getLoop_seq_some hp h0 hlt2]
              rw [show (c.set i.toNat w).get ⟨i.toNat, hlt2⟩ = w from by
                simp [List.getElem_set]]
              rfl
          | cons r2 rrest =>
              have hnn : isNullNode (c.get ⟨i.toNat, hlt⟩) = false := by
                rcases hel : c.get ⟨i.toNat, hlt⟩ with _ | _ | _ | _ | _ | _ | _
                · rw [hel] at hget2
                  simp [getLoop] at hget2
                all_goals rfl
              have ih := setGo_at_get_ok (r2 :: rrest) (c.get ⟨i.toNat, hlt⟩) w v
                (seen ++ [part]) (by simp) hget2
              rw [setGo_seq_rec hp h0 hlt hnn]
              refine ⟨ih.1, ?_⟩
              have hlt2 : i.toNat <
                  (c.set i.toNat (setGo (c.get ⟨i.toNat, hlt⟩) (r2 :: rrest) w).2).length := by
                simpa using hlt
              rw [getLoop_seq_some hp h0 hlt2]
              rw [show (c.set i.toNat (setGo (c.get ⟨i.toNat, hlt⟩) (r2 :: rrest) w).2).get
                    ⟨i.toNat, hlt2⟩ = (setGo (c.get ⟨i.toNat, hlt⟩) (r2 :: rrest) w).2 from by
                simp [List.getElem_set]]
              exact ih.2
      | null => simp [getLoop] at hget
      | bool b => simp [getLoop] at hget
      | int m => simp [getLoop] at hget
      | float q => simp [getLoop] at hget
      | str s => simp [getLoop] at hget

/-- Frame property of `Set` with respect to `Get`: a successful read along a
path whose segments are not integer-like (so the read passes only through
maps, never through a sequence) is untouched by a `Set` along any path that
is neither a prefix nor an extension of it.  The two walks part ways inside a
map at two different keys, and a map assignment at one key preserves every
other binding. -/
theorem setGo_preserve_get :
    ∀ (ksB : List String) (n w : Node) (ksA : List String) (v : Node) (seen : List String),
    (∀ part ∈ ksA, parseGoInt part = none) →
    ¬ ksA <+: ksB → ¬ ksB <+: ksA →
    getLoop n ksA seen = .ok v →
    getLoop (setGo n ksB w).2 ksA seen = .ok v
  | [], _, _, ksA, _, _, _, _, h2, _ => absurd List.nil_prefix h2
  | b :: restB, n, w, ksA, v, seen, hnp, h1, h2, hget => by
      cases ksA with
      | nil => exact absurd List.nil_prefix h1
      | cons a restA =>
          cases n with
          | map kvs =>
              obtain ⟨child, hl, hget2⟩ := getLoop_map_ok hget
              by_cases hab : a = b
              · subst hab
                have h1' : ¬ restA <+: restB := fun hp =>
                  h1 (List.cons_prefix_cons.mpr ⟨rfl, hp⟩)
                have h2' : ¬ restB <+: restA := fun hp =>
                  h2 (List.cons_prefix_cons.mpr ⟨rfl, hp⟩)
                cases restB with
                | nil =>
                    exact absurd (List.cons_prefix_cons.mpr ⟨rfl, List.nil_prefix⟩) h2
                | cons b2 restB2 =>
                    rw [setGo_map_hit hl, getLoop_map_cons, lookupGo_mapSet_self]
                    exact setGo_preserve_get (b2 :: restB2) child w restA v (seen ++ [a])
                      (fun p hp => hnp p (List.mem_cons_of_mem _ hp)) h1' h2' hget2
              · have hrebuild : ∀ X : Node, lookupGo (mapSet kvs b X) a = some child := by
                  intro X
                  rw [lookupGo_mapSet_ne kvs b a X hab, hl]
                cases restB with
                | nil =>
                    rw [setGo_map_terminal, getLoop_map_cons, hrebuild w]
                    exact hget2
                | cons b2 restB2 =>
                    rcases hl2 : lookupGo kvs b with _ | child2
                    · rcases hm : materializeFor b2 with fresh | e | m
                      · rw [setGo_map_miss_ok hl2 hm, getLoop_map_cons, hrebuild _]
                        exact hget2
                      · exact absurd hm (materializeFor_not_err b2 e)
                      · rw [setGo_map_miss_panic hl2 hm]
                        exact hget
                    · rw [setGo_map_hit hl2, getLoop_map_cons, hrebuild _]
                      exact hget2
          | seq c =>
              have hpa := hnp a (List.mem_cons_self _ _)
              rw [getLoop_seq_none restA seen hpa] at hget
              exact absurd hget (by simp)
          | null => simp [getLoop] at hget
          | bool x => simp [getLoop] at hget
          | int x => simp [getLoop] at hget
          | float x => simp [getLoop] at hget
          | str x => simp [getLoop] at hget

/-!  Soundness of the getKeys leaf enumeration.  -/

theorem lookupGo_cons_of_rest {k1 : String} {v1 : Node} {rest : List (String × Node)}
    {k : String} {v : Node} (hw : wfKvs ((k1, v1) :: rest) = true)
    (hl : lookupGo rest k = some v) : lookupGo ((k1, v1) :: rest) k = some v := by
  obtain ⟨hnk, _, _⟩ := wfKvs_cons hw
  have hne : ¬ k1 = k := by
    intro he
    subst he
    rw [show hasKeyGo rest k1 = true from by simp [hasKeyGo, hl]] at hnk
    exact Bool.true_eq_false.mp hnk
  simp [lookupGo, hne, hl]

mutual

theorem getKeysGo_sound : ∀ (t : Node) (base ks : List String), wfNode t = true →
    ks ∈ getKeysGo t base → ∃ suf, ks = base ++ suf ∧ leafAt t suf
  | .null, base, ks, _, h => by
      have : ks = base := by simpa [getKeysGo] using h
      exact ⟨[], by simp [this], by simp [leafAt, isLeafGo]⟩
  | .bool b, base, ks, _, h => by
      have : ks = base := by simpa [getKeysGo] using h
      exact ⟨[], by simp [this], by simp [leafAt, isLeafGo]⟩
  | .int m, base, ks, _, h => by
      have : ks = base := by simpa [getKeysGo] using h
      exact ⟨[], by simp [this], by simp [leafAt, isLeafGo]⟩
  | .float q, base, ks, _, h => by
      have : ks = base := by simpa [getKeysGo] using h
      exact ⟨[], by simp [this], by simp [leafAt, isLeafGo]⟩
  | .str sx, base, ks, _, h => by
      have : ks = base := by simpa [getKeysGo] using h
      exact ⟨[], by simp [this], by simp [leafAt, isLeafGo]⟩
  | .map kvs, base, ks, hw, h => by
      have h2 : ks ∈ getKeysMap kvs base := h
      obtain ⟨k, v, suf, hl, hks, hleaf⟩ := getKeysMap_sound kvs base ks hw h2
      exact ⟨k :: suf, hks, v, hl, hleaf⟩
  | .seq xs, base, ks, hw, h => by
      have h2 : ks ∈ getKeysSeq xs 0 base := h
      obtain ⟨j, hj, suf, hks, hleaf⟩ := getKeysSeq_sound xs 0 base ks hw h2
      refine ⟨toString (0 + j) :: suf, hks, j, ?_⟩
      rw [Nat.zero_add] at hks ⊢
      exact ⟨hj, rfl, hleaf⟩

theorem getKeysMap_sound : ∀ (kvs : List (String × Node)) (base ks : List String),
    wfKvs kvs = true → ks ∈ getKeysMap kvs base →
    ∃ k v suf, lookupGo kvs k = some v ∧ ks = base ++ (k :: suf) ∧ leafAt v suf
  | [], base, ks, _, h => by simp [getKeysMap] at h
  | (k1, v1) :: rest, base, ks, hw, h => by
      obtain ⟨hnk, hv1, hrest⟩ := wfKvs_cons hw
      have h2 : ks ∈ getKeysGo v1 (base ++ [k1]) ++ getKeysMap rest base := h
      rcases List.mem_append.mp h2 with hin | hin
      · obtain ⟨suf, hks, hleaf⟩ := getKeysGo_sound v1 (base ++ [k1]) ks hv1 hin
        exact ⟨k1, v1, suf, by simp [lookupGo], by simp [hks], hleaf⟩
      · obtain ⟨k, v, suf, hl, hks, hleaf⟩ := getKeysMap_sound rest base ks hrest hin
        exact ⟨k, v, suf, lookupGo_cons_of_rest hw hl, hks, hleaf⟩

theorem getKeysSeq_sound : ∀ (xs : List Node) (i0 : Nat) (base ks : List String),
    wfList xs = true → ks ∈ getKeysSeq xs i0 base →
    ∃ (j : Nat) (hj : j < xs.length) (suf : List String),
      ks = base ++ (toString (i0 + j) :: suf) ∧ leafAt (xs.get ⟨j, hj⟩) suf
  | [], _, _, _, _, h => by simp [getKeysSeq] at h
  | v :: rest, i0, base, ks, hw, h => by
      have hw2 : (wfNode v && wfList rest) = true := hw
      simp only [Bool.and_eq_true] at hw2
      have h2 : ks ∈ getKeysGo v (base ++ [toString i0]) ++ getKeysSeq rest (i0 + 1) base := h
      rcases List.mem_append.mp h2 with hin | hin
      · obtain ⟨suf, hks, hleaf⟩ := getKeysGo_sound v (base ++ [toString i0]) ks hw2.1 hin
        refine ⟨0, by simp, suf, ?_, ?_⟩
        · simpa [Nat.add_zero] using hks
        · simpa using hleaf
      · obtain ⟨j, hj, suf, hks, hleaf⟩ := getKeysSeq_sound rest (i0 + 1) base ks hw2.2 hin
        refine ⟨j + 1, by simpa using Nat.succ_lt_succ hj, suf, ?_, ?_⟩
        · rw [hks]
          have : i0 + 1 + j = i0 + (j + 1) := by omega
          rw [this]
        · simpa using hleaf

end

/-!  leafAt facts.  -/

theorem plainKey_good {k : String} (h : plainKey k = true) : goodKey k = true := by
  have h2 : (goodKey k && (parseGoInt k).isNone) = true := h
  simp only [Bool.and_eq_true] at h2
  exact h2.1

theorem plainKey_parse_none {k : String} (h : plainKey k = true) : parseGoInt k = none := by
  have h2 : (goodKey k && (parseGoInt k).isNone) = true := h
  simp only [Bool.and_eq_true] at h2
  exact Option.isNone_iff_eq_none.mp h2.2

theorem keysPlainList_mem : ∀ {xs : List Node} {x : Node},
    keysPlainList xs = true → x ∈ xs → keysPlain x = true := by
  intro xs
  induction xs with
  | nil => intro x _ h; simp at h
  | cons y rest ih =>
      intro x hp hx
      have hp2 : (keysPlain y && keysPlainList rest) = true := hp
      simp only [Bool.and_eq_true] at hp2
      rcases List.mem_cons.mp hx with rfl | hx2
      · exact hp2.1
      · exact ih hp2.2 hx2

theorem leafAt_parts_good : ∀ (suf : List String) (t : Node),
    keysPlain t = true → leafAt t suf → ∀ part ∈ suf, goodKey part = true
  | [], _, _, _ => by simp
  | s :: rest, t, hp, hleaf => by
      intro part hpart
      cases t with
      | map kvs =>
          obtain ⟨v, hl, hleaf2⟩ := hleaf
          obtain ⟨hks, hkv⟩ := @keysPlainKvs_lookup kvs _ _ hp hl
          rcases List.mem_cons.mp hpart with rfl | h2
          · exact plainKey_good hks
          · exact leafAt_parts_good rest v hkv hleaf2 part h2
      | seq xs =>
          obtain ⟨i, hi, rfl, hleaf2⟩ := hleaf
          rcases List.mem_cons.mp hpart with rfl | h2
          · rw [toString_nat_eq_repr]
            exact goodKey_natRepr i
          · have hkx : keysPlain (xs.get ⟨i, hi⟩) = true :=
              keysPlainList_mem hp (xs.get_mem _ _)
            exact leafAt_parts_good rest _ hkx hleaf2 part h2
      | null => exact absurd hleaf (by simp [leafAt])
      | bool b => exact absurd hleaf (by simp [leafAt])
      | int m => exact absurd hleaf (by simp [leafAt])
      | float q => exact absurd hleaf (by simp [leafAt])
      | str sx => exact absurd hleaf (by simp [leafAt])

theorem leafAt_mapChain : ∀ (suf : List String) (t w : Node),
    leafAt t suf → mapChain t suf = some w → isLeafGo w
  | [], t, w, hleaf, hc => by
      obtain rfl : t = w := by simpa [mapChain] using hc
      simpa [leafAt] using hleaf
  | s :: rest, t, w, hleaf, hc => by
      obtain ⟨kvs, rfl⟩ := mapChain_cons_forces_map hc
      obtain ⟨v, hl, hleaf2⟩ := hleaf
      have hc2 : mapChain v rest = some w := by simpa [mapChain, hl] using hc
      exact leafAt_mapChain rest v w hleaf2 hc2

theorem leafAt_not_prefix {t : Node} {suf ks : List String} {xs : List Node}
    (hleaf : leafAt t suf) (hc : mapChain t ks = some (.seq xs)) : ¬ suf <+: ks := by
  rintro ⟨ext, rfl⟩
  rw [mapChain_append] at hc
  rcases hw : mapChain t suf with _ | w
  · rw [hw] at hc
    simp at hc
  · rw [hw] at hc
    simp only [Option.some_bind] at hc
    have hlf := leafAt_mapChain suf t w hleaf hw
    cases ext with
    | nil =>
        obtain rfl : w = .seq xs := by simpa [mapChain] using hc
        exact hlf
    | cons e rest =>
        obtain ⟨kvs2, rfl⟩ := mapChain_cons_forces_map hc
        exact hlf

/-!  Distinctness of scanner paths, and path translation lemmas.  -/

theorem string_data_inj {s t : String} (h : s.data = t.data) : s = t := by
  cases s with
  | mk cs =>
      cases t with
      | mk ds => simpa using congrArg String.mk h

theorem string_append_left_cancel {a b c : String} (h : a ++ b = a ++ c) : b = c := by
  apply string_data_inj
  have h2 : a.data ++ b.data = a.data ++ c.data := congrArg String.data h
  exact List.append_cancel_left h2

theorem joinDots_ne_empty {ps : List String} (hne : ps ≠ [])
    (hg : ∀ p ∈ ps, goodKey p = true) : joinDots ps ≠ "" := by
  intro he
  have hsplit := splitDot_join ps hne hg
  rw [he] at hsplit
  have : ps = [""] := by
    rw [← hsplit]
    rfl
  subst this
  exact (goodKey_spec (hg "" (List.mem_cons_self _ _))).1 rfl

theorem foldl_pathAppend_inj_head {path0 k1 k2 : String} {c1 c2 : List String}
    (hg1 : goodKey k1 = true) (hg2 : goodKey k2 = true)
    (hgc1 : ∀ x ∈ c1, goodKey x = true) (hgc2 : ∀ x ∈ c2, goodKey x = true)
    (h : List.foldl pathAppend path0 (k1 :: c1) = List.foldl pathAppend path0 (k2 :: c2)) :
    k1 = k2 := by
  have hall1 : ∀ x ∈ k1 :: c1, goodKey x = true := by
    intro x hx
    rcases List.mem_cons.mp hx with rfl | h2
    · exact hg1
    · exact hgc1 x h2
  have hall2 : ∀ x ∈ k2 :: c2, goodKey x = true := by
    intro x hx
    rcases List.mem_cons.mp hx with rfl | h2
    · exact hg2
    · exact hgc2 x h2
  have hjoin : joinDots (k1 :: c1) = joinDots (k2 :: c2) := by
    by_cases hp0 : path0 = ""
    · subst hp0
      rw [foldl_pathAppend_root (k1 :: c1) (by simp)
          (fun x hx => (goodKey_spec (hall1 x hx)).1),
        foldl_pathAppend_root (k2 :: c2) (by simp)
          (fun x hx => (goodKey_spec (hall2 x hx)).1)] at h
      exact h
    · rw [foldl_pathAppend_acc (k1 :: c1) path0 hp0 (by simp),
        foldl_pathAppend_acc (k2 :: c2) path0 hp0 (by simp)] at h
      exact string_append_left_cancel h
  have := joinDots_inj (by simp) (by simp) hall1 hall2 hjoin
  exact (List.cons.injEq _ _ _ _ ▸ congrArg id this) |>.1

mutual

theorem findArrayPathsRec_nodup : ∀ (t : Node) (path0 : String),
    wfNode t = true → keysPlain t = true → (findArrayPathsRec t path0).Nodup
  | .null, _, _, _ => by simp [findArrayPathsRec]
  | .bool b, _, _, _ => by simp [findArrayPathsRec]
  | .int m, _, _, _ => by simp [findArrayPathsRec]
  | .float q, _, _, _ => by simp [findArrayPathsRec]
  | .str sx, _, _, _ => by simp [findArrayPathsRec]
  | .seq xs, _, _, _ => by simp [findArrayPathsRec]
  | .map kvs, path0, hw, hk => findArrayPathsMap_nodup kvs path0 hw hk

theorem findArrayPathsMap_nodup : ∀ (kvs : List (String × Node)) (path0 : String),
    wfKvs kvs = true → keysPlainKvs kvs = true → (findArrayPathsMap kvs path0).Nodup
  | [], _, _, _ => by simp [findArrayPathsMap]
  | (k, v) :: rest, path0, hw, hk => by
      obtain ⟨hnk, hv, hrest⟩ := wfKvs_cons hw
      have hk2 : (plainKey k && keysPlain v && keysPlainKvs rest) = true := hk
      simp only [Bool.and_eq_true] at hk2
      show (findArrayPathsRec v (pathAppend path0 k) ++ findArrayPathsMap rest path0).Nodup
      apply List.Nodup.append
      · exact findArrayPathsRec_nodup v (pathAppend path0 k) hv hk2.1.2
      · exact findArrayPathsMap_nodup rest path0 hrest hk2.2
      · intro q hq1 hq2
        obtain ⟨c1, xs1, hc1, hq1e⟩ :=
          (findArrayPathsRec_mem v (pathAppend path0 k) q hv).mp hq1
        obtain ⟨k2, v2, hl2, c2, xs2, hc2, hq2e⟩ :=
          (findArrayPathsMap_mem rest path0 q hrest).mp hq2
        have hkk : k ≠ k2 := by
          intro he
          subst he
          rw [show hasKeyGo rest k = true from by simp [hasKeyGo, hl2]] at hnk
          exact Bool.true_eq_false.mp hnk
        have hgc1 := (mapChain_keys c1 v _ hk2.1.2 hc1).1
        have hpk2 := @keysPlainKvs_lookup rest _ _ hk2.2 hl2
        have hgc2 := (mapChain_keys c2 v2 _ hpk2.2 hc2).1
        have he : List.foldl pathAppend path0 (k :: c1) =
            List.foldl pathAppend path0 (k2 :: c2) := by
          rw [foldl_pathAppend_cons, foldl_pathAppend_cons, ← hq1e, ← hq2e]
        exact hkk (foldl_pathAppend_inj_head (plainKey_good hk2.1.1) (plainKey_good hpk2.1)
          (fun x hx => plainKey_good (hgc1 x hx)) (fun x hx => plainKey_good (hgc2 x hx)) he)

end

theorem GoGet_join (n : Node) {ps : List String} (hne : ps ≠ [])
    (hg : ∀ p ∈ ps, goodKey p = true) :
    GoGet n (joinDots ps) = getLoop n ps [] := by
  unfold GoGet
  rw [splitKey_join ps hne hg,
    normalizeParts_of_not_mem (fun hm => (goodKey_spec (hg "" hm)).1 rfl)]

theorem GoSet_join (n w : Node) {ps : List String} (hne : ps ≠ [])
    (hg : ∀ p ∈ ps, goodKey p = true) :
    GoSet n (joinDots ps) w = setGo n ps w := by
  unfold GoSet
  rw [splitDot_join ps hne hg,
    normalizeParts_of_not_mem (fun hm => (goodKey_spec (hg "" hm)).1 rfl)]

theorem listAcc_join_ok {n : Node} {ps : List String} (hne : ps ≠ [])
    (hg : ∀ p ∈ ps, goodKey p = true) {xs : List Node}
    (h : getLoop n ps [] = .ok (.seq xs)) : listAcc n (joinDots ps) = .ok xs := by
  unfold listAcc
  rw [GoGet_join n hne hg, h]

/-!  Arithmetic of the element-wise array merge.  -/

theorem mergeArrays_length (xs ys : List Node) :
    (mergeArrays xs ys).length = max xs.length ys.length := by
  simp [mergeArrays]
  omega

theorem mergeArrays_getD_lt {xs ys : List Node} {i : Nat} (h : i < ys.length) :
    (mergeArrays xs ys).getD i .null = ys.getD i .null := by
  simp only [mergeArrays, List.getD_eq_getElem?_getD]
  rw [List.getElem?_append, if_pos h]

theorem mergeArrays_getD_ge {xs ys : List Node} {i : Nat} (h1 : ys.length ≤ i)
    (_h2 : i < xs.length) :
    (mergeArrays xs ys).getD i .null = xs.getD i .null := by
  simp only [mergeArrays, List.getD_eq_getElem?_getD]
  rw [List.getElem?_append_right h1, List.getElem?_drop]
  have he : ys.length + (i - ys.length) = i := by omega
  rw [he]

/-!  The two passes of Extend preserve and establish the merged sequence.  -/

theorem extendArrays_cons (overlay n : Node) (q : String) (rest processed : List String) :
    extendArrays overlay n (q :: rest) processed =
      if q = "" then extendArrays overlay n rest processed
      else
        match listAcc overlay q with
        | .ok sourceArr =>
          match listAcc n q with
          | .ok targetArr =>
            match GoSet n q (.seq (mergeArrays targetArr sourceArr)) with
            | (.ok _, n2) => extendArrays overlay n2 rest (processed ++ [q])
            | (.err e, _) => .err e
            | (.panicked m, _) => .panicked m
          | .err _ =>
            match GoSet n q (.seq sourceArr) with
            | (.ok _, n2) => extendArrays overlay n2 rest (processed ++ [q])
            | (.err e, _) => .err e
            | (.panicked m, _) => .panicked m
          | .panicked m => .panicked m
        | .err e => .err e
        | .panicked m => .panicked m := rfl

theorem extendKeys_cons (overlay n : Node) (key : List String) (rest : List (List String))
    (processed : List String) :
    extendKeys overlay n (key :: rest) processed =
      if isProcessed processed (joinDots key) then extendKeys overlay n rest processed
      else
        match GoGet overlay (joinDots key) with
        | .ok i =>
          match GoSet n (joinDots key) i with
          | (.ok _, n2) => extendKeys overlay n2 rest processed
          | (.err e, _) => .err e
          | (.panicked m, _) => .panicked m
        | .err e => .err e
        | .panicked m => .panicked m := rfl

theorem extendArrays_preserve :
    ∀ (paths : List String) (overlay n : Node) (processed : List String)
      (pparts : List String) (v : Node) {n2 : Node} {proc2 : List String},
    (∀ part ∈ pparts, parseGoInt part = none) →
    (∀ q ∈ paths, q = "" ∨ ∃ ksq, ksq ≠ [] ∧ (∀ x ∈ ksq, goodKey x = true) ∧
      q = joinDots ksq ∧ ¬ pparts <+: ksq ∧ ¬ ksq <+: pparts) →
    extendArrays overlay n paths processed = .ok (n2, proc2) →
    getLoop n pparts [] = .ok v →
    getLoop n2 pparts [] = .ok v ∧ ∀ x ∈ processed, x ∈ proc2
  | [], overlay, n, processed, pparts, v, n2, proc2, _, _, hfold, hget => by
      have h2 : n = n2 ∧ processed = proc2 := by
        have : (GoResult.ok (n, processed) : GoResult (Node × List String)) = .ok (n2, proc2) :=
          hfold
        simpa using this
      obtain ⟨rfl, rfl⟩ := h2
      exact ⟨hget, fun x hx => hx⟩
  | q :: rest, overlay, n, processed, pparts, v, n2, proc2, hnp, hq, hfold, hget => by
      rw [extendArrays_cons] at hfold
      by_cases hqe : q = ""
      · rw [if_pos hqe] at hfold
        exact extendArrays_preserve rest overlay n processed pparts v hnp
          (fun x hx => hq x (List.mem_cons_of_mem _ hx)) hfold hget
      · rw [if_neg hqe] at hfold
        rcases hq q (List.mem_cons_self _ _) with rfl | ⟨ksq, hkne, hkg, rfl, hi1, hi2⟩
        · exact absurd rfl hqe
        · have hrest := fun x hx => hq x (List.mem_cons_of_mem _ hx)
          rcases hsrc : listAcc overlay (joinDots ksq) with src | e | m <;>
            rw [hsrc] at hfold <;> simp only [] at hfold
          · rcases htgt : listAcc n (joinDots ksq) with tgt | e2 | m2 <;>
              rw [htgt] at hfold <;> simp only [] at hfold
            · rw [GoSet_join n (.seq (mergeArrays tgt src)) hkne hkg] at hfold
              rcases hset : setGo n ksq (.seq (mergeArrays tgt src)) with ⟨out, nn⟩
              rw [hset] at hfold
              have hframe := setGo_preserve_get ksq n (.seq (mergeArrays tgt src)) pparts v []
                hnp hi1 hi2 hget
              rw [hset] at hframe
              cases out with
              | ok u =>
                  obtain ⟨hg2, hmono⟩ := extendArrays_preserve rest overlay nn
                    (processed ++ [joinDots ksq]) pparts v hnp hrest hfold hframe
                  exact ⟨hg2, fun x hx => hmono x (List.mem_append_left _ hx)⟩
              | err e => exact absurd hfold (by simp)
              | panicked m => exact absurd hfold (by simp)
            · rw [GoSet_join n (.seq src) hkne hkg] at hfold
              rcases hset : setGo n ksq (.seq src) with ⟨out, nn⟩
              rw [hset] at hfold
              have hframe := setGo_preserve_get ksq n (.seq src) pparts v []
                hnp hi1 hi2 hget
              rw [hset] at hframe
              cases out with
              | ok u =>
                  obtain ⟨hg2, hmono⟩ := extendArrays_preserve rest overlay nn
                    (processed ++ [joinDots ksq]) pparts v hnp hrest hfold hframe
                  exact ⟨hg2, fun x hx => hmono x (List.mem_append_left _ hx)⟩
              | err e => exact absurd hfold (by simp)
              | panicked m => exact absurd hfold (by simp)
            · exact absurd hfold (by simp)
          · exact absurd hfold (by simp)
          · exact absurd hfold (by simp)

theorem extendArrays_merge :
    ∀ (l1 : List String) (overlay n : Node) (l2 processed : List String)
      (pparts : List String) (xs ys : List Node) {n2 : Node} {proc2 : List String},
    pparts ≠ [] →
    (∀ x ∈ pparts, goodKey x = true) →
    (∀ part ∈ pparts, parseGoInt part = none) →
    (∀ q ∈ l1 ++ l2, q = "" ∨ ∃ ksq, ksq ≠ [] ∧ (∀ x ∈ ksq, goodKey x = true) ∧
      q = joinDots ksq ∧ ¬ pparts <+: ksq ∧ ¬ ksq <+: pparts) →
    listAcc overlay (joinDots pparts) = .ok ys →
    extendArrays overlay n (l1 ++ joinDots pparts :: l2) processed = .ok (n2, proc2) →
    getLoop n pparts [] = .ok (.seq xs) →
    getLoop n2 pparts [] = .ok (.seq (mergeArrays xs ys)) ∧ joinDots pparts ∈ proc2
  | [], overlay, n, l2, processed, pparts, xs, ys, n2, proc2, hne, hkg, hnp, hincomp, hsrc,
      hfold, hget => by
      rw [List.nil_append, extendArrays_cons,
        if_neg (joinDots_ne_empty hne hkg), hsrc] at hfold
      simp only [] at hfold
      rw [listAcc_join_ok hne hkg hget] at hfold
      simp only [] at hfold
      rw [GoSet_join n (.seq (mergeArrays xs ys)) hne hkg] at hfold
      have hsetok := setGo_at_get_ok pparts n (.seq (mergeArrays xs ys)) (.seq xs) [] hne hget
      rcases hset : setGo n pparts (.seq (mergeArrays xs ys)) with ⟨out, nn⟩
      rw [hset] at hfold hsetok
      obtain ⟨hout, hafter⟩ := hsetok
      simp only at hout
      subst hout
      simp only [] at hfold
      obtain ⟨hg2, hmono⟩ := extendArrays_preserve l2 overlay nn
        (processed ++ [joinDots pparts]) pparts (.seq (mergeArrays xs ys)) hnp hincomp hfold
        hafter
      exact ⟨hg2, hmono _ (List.mem_append_right _ (List.mem_cons_self _ _))⟩
  | q :: l1, overlay, n, l2, processed, pparts, xs, ys, n2, proc2, hne, hkg, hnp, hincomp,
      hsrc, hfold, hget => by
      rw [List.cons_append, extendArrays_cons] at hfold
      by_cases hqe : q = ""
      · rw [if_pos hqe] at hfold
        exact extendArrays_merge l1 overlay n l2 processed pparts xs ys hne hkg hnp
          (fun x hx => hincomp x (List.mem_cons_of_mem _ hx)) hsrc hfold hget
      · rw [if_neg hqe] at hfold
        rcases hincomp q (List.mem_cons_self _ _) with rfl | ⟨ksq, hkne, hkgq, rfl, hi1, hi2⟩
        · exact absurd rfl hqe
        · have hrest := fun x hx => hincomp x (List.mem_cons_of_mem _ hx)
          rcases hsrc2 : listAcc overlay (joinDots ksq) with src | e | m <;>
            rw [hsrc2] at hfold <;> simp only [] at hfold
          · rcases htgt : listAcc n (joinDots ksq) with tgt | e2 | m2 <;>
              rw [htgt] at hfold <;> simp only [] at hfold
            · rw [GoSet_join n (.seq (mergeArrays tgt src)) hkne hkgq] at hfold
              rcases hset : setGo n ksq (.seq (mergeArrays tgt src)) with ⟨out, nn⟩
              rw [hset] at hfold
              have hframe := setGo_preserve_get ksq n (.seq (mergeArrays tgt src)) pparts
                (.seq xs) [] hnp hi1 hi2 hget
              rw [hset] at hframe
              cases out with
              | ok u =>
                  exact extendArrays_merge l1 overlay nn l2
                    (processed ++ [joinDots ksq]) pparts xs ys hne hkg hnp hrest hsrc hfold
                    hframe
              | err e => exact absurd hfold (by simp)
              | panicked m => exact absurd hfold (by simp)
            · rw [GoSet_join n (.seq src) hkne hkgq] at hfold
              rcases hset : setGo n ksq (.seq src) with ⟨out, nn⟩
              rw [hset] at hfold
              have hframe := setGo_preserve_get ksq n (.seq src) pparts (.seq xs) []
                hnp hi1 hi2 hget
              rw [hset] at hframe
              cases out with
              | ok u =>
                  exact extendArrays_merge l1 overlay nn l2
                    (processed ++ [joinDots ksq]) pparts xs ys hne hkg hnp hrest hsrc hfold
                    hframe
              | err e => exact absurd hfold (by simp)
              | panicked m => exact absurd hfold (by simp)
            · exact absurd hfold (by simp)
          · exact absurd hfold (by simp)
          · exact absurd hfold (by simp)

theorem extendKeys_preserve :
    ∀ (keys : List (List String)) (overlay n : Node) (processed : List String)
      (pparts : List String) (v : Node) {r : Node},
    pparts ≠ [] →
    (∀ x ∈ pparts, goodKey x = true) →
    (∀ part ∈ pparts, parseGoInt part = none) →
    joinDots pparts ∈ processed →
    (∀ ks ∈ keys, ks ≠ [] ∧ (∀ x ∈ ks, goodKey x = true) ∧ ¬ ks <+: pparts) →
    extendKeys overlay n keys processed = .ok r →
    getLoop n pparts [] = .ok v →
    getLoop r pparts [] = .ok v
  | [], overlay, n, processed, pparts, v, r, _, _, _, _, _, hfold, hget => by
      have h2 : (GoResult.ok n : GoResult Node) = .ok r := hfold
      obtain rfl : n = r := by simpa using h2
      exact hget
  | key :: rest, overlay, n, processed, pparts, v, r, hne, hkg, hnp, hproc, hkeys, hfold,
      hget => by
      rw [extendKeys_cons] at hfold
      by_cases hskip : isProcessed processed (joinDots key) = true
      · rw [if_pos hskip] at hfold
        exact extendKeys_preserve rest overlay n processed pparts v hne hkg hnp hproc
          (fun x hx => hkeys x (List.mem_cons_of_mem _ hx)) hfold hget
      · rw [if_neg (by simpa using hskip)] at hfold
        obtain ⟨hkne, hkgood, hnotbelow⟩ := hkeys key (List.mem_cons_self _ _)
        have hnotabove : ¬ pparts <+: key := by
          rintro ⟨ext, rfl⟩
          apply hskip
          cases ext with
          | nil =>
              apply List.any_eq_true.mpr
              refine ⟨joinDots pparts, hproc, ?_⟩
              simp
          | cons e erest =>
              apply List.any_eq_true.mpr
              refine ⟨joinDots pparts, hproc, ?_⟩
              have := @goHasPrefix_join_strict _ (e :: erest) hne (by simp)
              simp [this]
        rcases hov : GoGet overlay (joinDots key) with i | e | m <;> rw [hov] at hfold <;>
          simp only [] at hfold
        · rw [GoSet_join n i hkne hkgood] at hfold
          rcases hset : setGo n key i with ⟨out, nn⟩
          rw [hset] at hfold
          have hframe := setGo_preserve_get key n i pparts v [] hnp hnotabove hnotbelow hget
          rw [hset] at hframe
          cases out with
          | ok u =>
              exact extendKeys_preserve rest overlay nn processed pparts v hne hkg hnp hproc
                (fun x hx => hkeys x (List.mem_cons_of_mem _ hx)) hfold hframe
          | err e => exact absurd hfold (by simp)
          | panicked m => exact absurd hfold (by simp)
        · exact absurd hfold (by simp)
        · exact absurd hfold (by simp)

/-- C2 amended: the element-wise array merge of Extend, for configurations
whose mapping keys are plain (non-empty, free of '.', '[' and ']', and not
integer-like), so that distinct overlay array paths address disjoint
locations.  For every array path p of the overlay (other than the root) that
resolves to a Sequence ys in the overlay and to a Sequence xs in the base,
the successful Extend result holds at p the merge whose element at each
overlay index i is the overlay's, whose elements at the higher indices are
the base's, and whose length is max of the two lengths. -/
theorem C2_array_merge_amended
    (base overlay r : Node) (p : String) (xs ys : List Node)
    (hwf : wfNode overlay = true) (hkp : keysPlain overlay = true)
    (hp : p ∈ findArrayPaths overlay) (hpne : p ≠ "")
    (hbase : GoGet base p = .ok (.seq xs))
    (hover : GoGet overlay p = .ok (.seq ys))
    (hok : extendGo base overlay = .ok r) :
    GoGet r p = .ok (.seq (mergeArrays xs ys)) ∧
    (mergeArrays xs ys).length = max xs.length ys.length ∧
    (∀ i, i < ys.length → (mergeArrays xs ys).getD i .null = ys.getD i .null) ∧
    (∀ i, ys.length ≤ i → i < xs.length →
      (mergeArrays xs ys).getD i .null = xs.getD i .null) := by
  obtain ⟨ksp, zs, hchain, hfold0⟩ := (findArrayPathsRec_mem overlay "" p hwf).mp hp
  have hkne : ksp ≠ [] := by
    rintro rfl
    exact hpne (by simpa using hfold0)
  have hplain := (mapChain_keys ksp overlay _ hkp hchain).1
  have hkg : ∀ x ∈ ksp, goodKey x = true := fun x hx => plainKey_good (hplain x hx)
  have hnp : ∀ x ∈ ksp, parseGoInt x = none := fun x hx => plainKey_parse_none (hplain x hx)
  have hjoin : p = joinDots ksp := by
    rw [hfold0]
    exact foldl_pathAppend_root ksp hkne (fun x hx => (goodKey_spec (hkg x hx)).1)
  obtain ⟨kvs0, hov0⟩ : ∃ kvs0, overlay = .map kvs0 := by
    cases ksp with
    | nil => exact absurd rfl hkne
    | cons k krest => exact mapChain_cons_forces_map hchain
  obtain ⟨l1, l2, happ⟩ := List.mem_iff_append.mp hp
  have hnodup : (findArrayPaths overlay).Nodup := findArrayPathsRec_nodup overlay "" hwf hkp
  have hpnotl : p ∉ l1 ∧ p ∉ l2 := by
    rw [happ] at hnodup
    obtain ⟨h1, h2, hdisj⟩ := List.nodup_append.mp hnodup
    exact ⟨fun hmem => hdisj hmem (List.mem_cons_self _ _),
      (List.nodup_cons.mp h2).1⟩
  have hqfacts : ∀ q ∈ l1 ++ l2, q = "" ∨ ∃ ksq, ksq ≠ [] ∧ (∀ x ∈ ksq, goodKey x = true) ∧
      q = joinDots ksq ∧ ¬ ksp <+: ksq ∧ ¬ ksq <+: ksp := by
    intro q hq
    by_cases hqe : q = ""
    · exact Or.inl hqe
    · right
      have hqnep : q ≠ p := by
        rintro rfl
        rcases List.mem_append.mp hq with h | h
        · exact hpnotl.1 h
        · exact hpnotl.2 h
      have hqin : q ∈ findArrayPaths overlay := by
        rw [happ]
        rcases List.mem_append.mp hq with h | h
        · exact List.mem_append_left _ h
        · exact List.mem_append_right _ (List.mem_cons_of_mem _ h)
      obtain ⟨ksq, zsq, hchainq, hfoldq⟩ := (findArrayPathsRec_mem overlay "" q hwf).mp hqin
      have hkneq : ksq ≠ [] := by
        rintro rfl
        exact hqe (by simpa using hfoldq)
      have hplainq := (mapChain_keys ksq overlay _ hkp hchainq).1
      have hkgq : ∀ x ∈ ksq, goodKey x = true := fun x hx => plainKey_good (hplainq x hx)
      have hjoinq : q = joinDots ksq := by
        rw [hfoldq]
        exact foldl_pathAppend_root ksq hkneq (fun x hx => (goodKey_spec (hkgq x hx)).1)
      have hksqnep : ksq ≠ ksp := by
        intro he
        exact hqnep (by rw [hjoinq, hjoin, he])
      refine ⟨ksq, hkneq, hkgq, hjoinq, ?_, ?_⟩
      · rintro ⟨ext, hext⟩
        cases ext with
        | nil =>
            rw [List.append_nil] at hext
            exact hksqnep hext.symm
        | cons e erest =>
            rw [← hext, mapChain_append, hchain] at hchainq
            simp only [Option.some_bind] at hchainq
            exact absurd hchainq (by simp [mapChain])
      · rintro ⟨ext, hext⟩
        cases ext with
        | nil =>
            rw [List.append_nil] at hext
            exact hksqnep hext
        | cons e erest =>
            rw [← hext, mapChain_append, hchainq] at hchain
            simp only [Option.some_bind] at hchain
            exact absurd hchain (by simp [mapChain])
  have hfold1 : ∃ n2 proc2, extendArrays overlay base (findArrayPaths overlay) [] =
      .ok (n2, proc2) ∧ extendKeys overlay n2 (getKeysGo overlay []) proc2 = .ok r := by
    unfold extendGo at hok
    rcases he : extendArrays overlay base (findArrayPaths overlay) [] with ⟨n2, proc2⟩ | e | m <;>
      rw [he] at hok <;> simp only [] at hok
    · exact ⟨n2, proc2, rfl, hok⟩
    · exact absurd hok (by simp)
    · exact absurd hok (by simp)
  obtain ⟨n2, proc2, harr, hkeysfold⟩ := hfold1
  have hget0 : getLoop base ksp [] = .ok (.seq xs) := by
    rw [← GoGet_join base hkne hkg, ← hjoin]
    exact hbase
  have hsrc : listAcc overlay (joinDots ksp) = .ok ys := by
    unfold listAcc
    rw [← hjoin, hover]
  rw [happ, hjoin] at harr
  obtain ⟨hg2, hproc⟩ := extendArrays_merge l1 overlay base l2 [] ksp xs ys hkne hkg hnp
    hqfacts hsrc harr hget0
  have hkeysfacts : ∀ ks ∈ getKeysGo overlay [], ks ≠ [] ∧ (∀ x ∈ ks, goodKey x = true) ∧
      ¬ ks <+: ksp := by
    intro ks hks
    obtain ⟨suf, hsuf, hleaf⟩ := getKeysGo_sound overlay [] ks hwf hks
    rw [List.nil_append] at hsuf
    subst hsuf
    refine ⟨?_, leafAt_parts_good ks overlay hkp hleaf, leafAt_not_prefix hleaf hchain⟩
    rintro rfl
    rw [hov0] at hleaf
    simp [leafAt, isLeafGo] at hleaf
  have hfinal := extendKeys_preserve (getKeysGo overlay []) overlay n2 proc2 ksp
    (.seq (mergeArrays xs ys)) hkne hkg hnp hproc hkeysfacts hkeysfold hg2
  refine ⟨?_, mergeArrays_length xs ys, fun i h => mergeArrays_getD_lt h,
    fun i h1 h2 => mergeArrays_getD_ge h1 h2⟩
  rw [hjoin, GoGet_join r hkne hkg]
  exact hfinal

/-- C2 witness: the amended theorem applied to the concrete merge of base
list [0, 1, 2] with overlay list [10, 11], yielding [10, 11, 2]. -/
theorem C2_array_merge_witness :
    GoGet (.map [("l", .seq [.int 10, .int 11, .int 2])]) "l" =
      .ok (.seq (mergeArrays [.int 0, .int 1, .int 2] [.int 10, .int 11])) ∧
    (mergeArrays [Node.int 0, .int 1, .int 2] [.int 10, .int 11]).length = max 3 2 ∧
    (∀ i, i < List.length [Node.int 10, .int 11] →
      (mergeArrays [Node.int 0, .int 1, .int 2] [.int 10, .int 11]).getD i .null =
        (List.getD [Node.int 10, .int 11] i .null)) ∧
    (∀ i, List.length [Node.int 10, .int 11] ≤ i → i < List.length [Node.int 0, .int 1, .int 2] →
      (mergeArrays [Node.int 0, .int 1, .int 2] [.int 10, .int 11]).getD i .null =
        (List.getD [Node.int 0, .int 1, .int 2] i .null)) :=
  C2_array_merge_amended (.map [("l", .seq [.int 0, .int 1, .int 2])])
    (.map [("l", .seq [.int 10, .int 11])])
    (.map [("l", .seq [.int 10, .int 11, .int 2])]) "l"
    [.int 0, .int 1, .int 2] [.int 10, .int 11]
    (by decide) (by decide) (by decide) (by decide) rfl rfl rfl

end Config
